import Mathlib

/-!
# TeSSLaSim web frontend: stream queries and the simulation store

A shallow embedding of `src/webFrontend/src/stream.js`, `constants.js` and
`store.js`.

* Numbers (time stamps `t`, numeric payloads `v`, the clock) arrive through
  `response.json()`; a JSON number is a finite double, and the code only ever
  compares them, so they are embedded in `ℚ` with its usual order.
* A stream is the plain object of the payload: `name`, `type`, `valueType`,
  `values` (an array of `{t, v}` objects) and `initialValue`.
* A plain JavaScript object used as a dictionary is the list of its own
  properties in insertion order (`JSObject`). An assignment `o[k] = v` with the
  key `__proto__` adds no own property; `JSON.parse`, `Vue.set` and `Vue.delete`
  treat every key alike. The order of the list is the iteration order for keys
  that are not array-index strings (an object iterates those first); the
  statements about arbitrary stream names below are about membership and
  look-up, not about the order.
* `Vue.set` and `Vue.delete` are taken by their documented contract on the
  properties of the object they are handed; what Vue stores on an object for
  its own bookkeeping is not part of the embedding.
* A mutation or the `try` block of the action either returns or throws
  (`Completion`); either way it leaves a state behind.
-/

namespace TeSSLaSim

/-! ## constants.js -/

namespace Styles

def STEP : String := "step"
def SMOOTH : String := "smooth"
def LIFELINE : String := "lifeline"
def SIMPLE : String := "simple"
def BUBBLE : String := "bubble"
def DISCRETE : String := "discrete"

end Styles

namespace Types

def SIGNAL : String := "SignalStream"
def EVENTS : String := "EventStream"
def BOOL : String := "Boolean"
def INT : String := "Int"
def FLOAT : String := "Float"
def STRING : String := "String"
def UNIT : String := "Unit"

end Types

/-! ## Values and streams -/

/-- A payload value as decoded from JSON: `null`, a boolean, a (finite) number
or a string. -/
inductive JSValue where
  | null
  | bool (b : Bool)
  | num (n : ℚ)
  | str (s : String)
deriving DecidableEq, Repr

namespace JSValue

/-- JavaScript truthiness (`ToBoolean`): `null`, `false`, `0` and `""` are
falsy, every other value is truthy. -/
def truthy : JSValue → Bool
  | null => false
  | bool b => b
  | num n => decide (n ≠ 0)
  | str s => decide (s ≠ "")

/-- The JavaScript expression `a || b`. -/
def or (a b : JSValue) : JSValue :=
  if a.truthy then a else b

end JSValue

/-- One element `{t, v}` of a stream's `values` array. -/
structure Entry where
  t : ℚ
  v : JSValue
deriving DecidableEq, Repr

/-- The expression `_.get(entry, 'v', null)` for `entry` an element of `values`
or `null`: the `v` of the entry, and the default `null` for `null`. -/
def getV : Option Entry → JSValue
  | none => JSValue.null
  | some e => e.v

/-- A stream object as delivered by the backend and wrapped by `class Stream`. -/
structure Stream where
  name : String
  type : String
  valueType : String
  values : List Entry
  initialValue : JSValue
deriving DecidableEq, Repr

/-- The function `id (stream)` of stream.js: `name + type + valueType`. -/
def id (stream : Stream) : String :=
  stream.name ++ stream.type ++ stream.valueType

/-- The data-model invariant of `values`: strictly ascending in `t`. -/
def Ascending (values : List Entry) : Prop :=
  values.Pairwise (fun a b => a.t < b.t)

instance (values : List Entry) : Decidable (Ascending values) := by
  unfold Ascending; infer_instance

/-- The loop of `lastValueBefore`, started with `lastBefore` as accumulator. -/
def lastValueBeforeLoop (lastBefore : Option Entry) : List Entry → ℚ → Option Entry
  | [], _ => lastBefore
  | value :: rest, t =>
    if value.t ≥ t then lastBefore
    else lastValueBeforeLoop (some value) rest t

/-- The loop of `firstValueAfter`. -/
def firstValueAfterLoop : List Entry → ℚ → Option Entry
  | [], _ => none
  | value :: rest, t =>
    if value.t > t then some value
    else firstValueAfterLoop rest t

/-- The loop of `valueAt`. -/
def valueAtLoop : List Entry → ℚ → Option Entry
  | [], _ => none
  | value :: rest, t =>
    if value.t = t then some value
    else if value.t > t then none
    else valueAtLoop rest t

namespace Stream

def hasValues (s : Stream) : Bool :=
  decide (s.values.length > 0)

def isNumeric (s : Stream) : Bool :=
  decide (s.valueType = Types.INT) || decide (s.valueType = Types.FLOAT)

def firstValue (s : Stream) : Option Entry :=
  if s.hasValues then s.values.head? else none

def lastValue (s : Stream) : Option Entry :=
  if s.hasValues then s.values.getLast? else none

/-- The `(t, value)`-tuple with the largest timestamp smaller than `t`. -/
def lastValueBefore (s : Stream) (t : ℚ) : Option Entry :=
  lastValueBeforeLoop none s.values t

/-- The `(t, value)`-tuple with the smallest timestamp higher than `t`. -/
def firstValueAfter (s : Stream) (t : ℚ) : Option Entry :=
  firstValueAfterLoop s.values t

/-- The `(t, value)`-tuple (if any) with timestamp `t`. -/
def valueAt (s : Stream) (t : ℚ) : Option Entry :=
  valueAtLoop s.values t

/-- For signals the value at `t` derived from the encountered changes, for
events the event (if any) at `t` or `null`. -/
def computedValueAt (s : Stream) (t : ℚ) : JSValue :=
  let valueAtT := getV (s.valueAt t)
  if s.type = Types.SIGNAL then
    if valueAtT ≠ JSValue.null then
      valueAtT
    else
      let lastBefore := getV (s.lastValueBefore t)
      JSValue.or lastBefore s.initialValue
  else
    valueAtT

end Stream

/-! ## Plain objects used as dictionaries -/

/-- A plain JavaScript object used as a dictionary with string keys, as the
list of its own properties in iteration (insertion) order. -/
abbrev JSObject (α : Type) := List (String × α)

namespace JSObject

variable {α : Type}

/-- The array `Object.values(o)`. -/
def values (o : JSObject α) : List α :=
  o.map Prod.snd

/-- The array `Object.keys(o)`. -/
def keys (o : JSObject α) : List String :=
  o.map Prod.fst

/-- The property read `o[k]`; `none` stands for `undefined`. -/
def get (o : JSObject α) (k : String) : Option α :=
  (o.find? (fun p => p.1 == k)).map Prod.snd

/-- The own property `k` of `o` is given the value `v`: an existing property
keeps its place, a new one is appended. This is `Vue.set(o, k, v)` on a
reactive object, for every key `k`. -/
def define : JSObject α → String → α → JSObject α
  | [], k, v => [(k, v)]
  | (k', v') :: rest, k, v =>
    if k' = k then (k, v) :: rest else (k', v') :: define rest k v

/-- The assignment `o[k] = v` on an object that was created by `{}` and has
been filled by such assignments only. With the key `__proto__` the assignment
reaches the setter of `Object.prototype` and `o` gets no own property; with
every other key the own property `k` is given the value `v`. -/
def set (o : JSObject α) (k : String) (v : α) : JSObject α :=
  if k = "__proto__" then o else o.define k v

/-- The call `Vue.delete(o, k)`: the own property `k` is removed. -/
def delete (o : JSObject α) (k : String) : JSObject α :=
  o.filter (fun p => p.1 ≠ k)

end JSObject

/-! ## lodash helpers -/

/-- The call `_.differenceBy(array, values, iteratee)`: the elements of `array`
whose image under `iteratee` is not the image of an element of `values`, in
the order of `array`. -/
def differenceBy {α β : Type} [DecidableEq β] (array values : List α) (iteratee : α → β) :
    List α :=
  array.filter (fun x => decide (iteratee x ∉ values.map iteratee))

/-- One round of the loop of lodash's `baseExtremum` with the iteratee `'t'`:
a `null` element and an element that does not improve on the result so far
(in the sense of `comparator`) are skipped. -/
def extremumByTStep (comparator : ℚ → ℚ → Bool) (result : Option Entry) :
    Option Entry → Option Entry
  | none => result
  | some value =>
    match result with
    | none => some value
    | some computed => if comparator value.t computed.t then some value else result

/-- The call `_.minBy(array, 't')` on an array of entries and `null`s;
`none` stands for `undefined`. -/
def minByT (array : List (Option Entry)) : Option Entry :=
  array.foldl (extremumByTStep (fun a b => decide (a < b))) none

/-- The call `_.maxBy(array, 't')` on an array of entries and `null`s. -/
def maxByT (array : List (Option Entry)) : Option Entry :=
  array.foldl (extremumByTStep (fun a b => decide (a > b))) none

/-- The relational operators of JavaScript on two payload values, as lodash's
`baseLt` (`value < other`) and `baseGt` (`value > other`) apply them. -/
structure JSRelational where
  lt : JSValue → JSValue → Bool
  gt : JSValue → JSValue → Bool

/-- On two numbers the operators compare numerically. -/
def JSRelational.Numeric (ops : JSRelational) : Prop :=
  ∀ a b : ℚ, ops.lt (.num a) (.num b) = decide (a < b) ∧
    ops.gt (.num a) (.num b) = decide (a > b)

/-- One round of the loop of lodash's `baseExtremum` with the iteratee `'v'`:
an element whose `v` is `null` is skipped, the first other element becomes
the result, and a later one replaces the result when `comparator` holds
between its `v` and the `v` of the result. -/
def extremumByVStep (comparator : JSValue → JSValue → Bool) (result : Option Entry)
    (value : Entry) : Option Entry :=
  if value.v ≠ JSValue.null then
    match result with
    | none => some value
    | some computed => if comparator value.v computed.v then some value else result
  else result

/-- The call `_.minBy(array, 'v')`; `none` stands for `undefined`. -/
def minByV (ops : JSRelational) (array : List Entry) : Option Entry :=
  array.foldl (extremumByVStep ops.lt) none

/-- The call `_.maxBy(array, 'v')`; `none` stands for `undefined`. -/
def maxByV (ops : JSRelational) (array : List Entry) : Option Entry :=
  array.foldl (extremumByVStep ops.gt) none

namespace Stream

/-- The method `_reduceNumericValues`. The result is `none` when the method
throws: `iteratee` returned `undefined` and its `v` is read. -/
def _reduceNumericValues (s : Stream) (iteratee : List Entry → Option Entry) :
    Option JSValue :=
  if s.isNumeric then
    if s.hasValues then
      (iteratee s.values).map Entry.v
    else
      some s.initialValue
  else
    some JSValue.null

def minValue (ops : JSRelational) (s : Stream) : Option JSValue :=
  s._reduceNumericValues (minByV ops)

def maxValue (ops : JSRelational) (s : Stream) : Option JSValue :=
  s._reduceNumericValues (maxByV ops)

end Stream

/-! ## The parts of the JavaScript runtime that store.js calls -/

/-- The two library routines whose result `updateStreams` depends on.
`search text pattern` is `text.search(pattern)` with the pattern given as a
string: the index of the first match, `-1` without one, and `none` when the
pattern is not a valid regular expression and the call throws a `SyntaxError`.
`sort` is `Array.prototype.sort` with a compare function, whose results are
taken as numbers. -/
structure JSRuntime where
  search : String → String → Option Int
  sort : (Stream → Stream → Int) → List Stream → List Stream

/-! ## store.js -/

/-- The settings object of one stream; `none` is a `style` left `undefined`. -/
structure Settings where
  style : Option String
deriving DecidableEq, Repr

def preselectStyle (type valueType : String) : Option String :=
  if type = Types.SIGNAL then
    if valueType = Types.BOOL ∨ valueType = Types.INT ∨ valueType = Types.FLOAT then
      some Styles.STEP
    else if valueType = Types.STRING then
      some Styles.LIFELINE
    else none
  else if type = Types.EVENTS then
    if valueType = Types.BOOL ∨ valueType = Types.UNIT ∨ valueType = Types.STRING then
      some Styles.SIMPLE
    else if valueType = Types.INT ∨ valueType = Types.FLOAT then
      some Styles.DISCRETE
    else none
  else none

def defaultSettings (stream : Stream) : Settings :=
  { style := preselectStyle stream.type stream.valueType }

/-- An element of the `errors` array of a simulation result. -/
abbrev ErrorDescription := String

/-- The identity of a promise returned by `Api.simulate`; every call returns a
new promise. -/
abbrev PromiseId := Nat

/-- The `state` of the Vuex store. -/
structure State where
  scenarioSpec : String
  tesslaSpec : String
  _streams : JSObject Stream
  errors : List ErrorDescription
  pendingSimulation : Option PromiseId
  clock : Option ℚ
  streamSettings : JSObject Settings
deriving DecidableEq, Repr

def initialState : State :=
  { scenarioSpec := ""
    tesslaSpec := ""
    _streams := []
    errors := []
    pendingSimulation := none
    clock := none
    streamSettings := [] }

namespace Getters

/-- The getter `streams`. -/
def streams (state : State) : List Stream :=
  JSObject.values state._streams

/-- The getter `firstValue`; `none` is `null`. -/
def firstValue (state : State) : Option Entry :=
  minByT ((streams state).map Stream.firstValue)

/-- The getter `lastValue`; `none` is `null`. -/
def lastValue (state : State) : Option Entry :=
  maxByT ((streams state).map Stream.lastValue)

end Getters

/-- The pattern `regexpSce` built for a stream in `updateStreams`. -/
def regexpSce (stream : Stream) : String :=
  (if stream.type = Types.SIGNAL then "Signal" else "Events") ++
    "<\\s*" ++ stream.valueType ++ "\\s*>\\s*" ++ stream.name

/-- The pattern `regexpTes` built for a stream in `updateStreams`. -/
def regexpTes (stream : Stream) : String :=
  "define\\s*" ++ stream.name ++ "\\s*\\:="

/-- The value computed for a stream in the loop that fills `namePositions`: the
larger of the two search results, and `none` when one of the two searches
throws. -/
def namePosition (rt : JSRuntime) (specsConcat : String) (stream : Stream) : Option Int :=
  match rt.search specsConcat (regexpSce stream) with
  | none => none
  | some sce =>
    match rt.search specsConcat (regexpTes stream) with
    | none => none
    | some tes => some (max sce tes)

/-- The loop over `Object.values(plainStreams)` that fills `namePositions`,
started with the object `positions`; `none` when a search throws. -/
def namePositions (rt : JSRuntime) (specsConcat : String) :
    List Stream → JSObject Int → Option (JSObject Int)
  | [], positions => some positions
  | stream :: rest, positions =>
    match namePosition rt specsConcat stream with
    | none => none
    | some position => namePositions rt specsConcat rest (positions.set stream.name position)

/-- The relation `x > y` on two property reads of `namePositions`; with an
operand that is not a number (`none`: the read of `__proto__`, which gives the
prototype) it is false. -/
def jsGt : Option Int → Option Int → Bool
  | some x, some y => decide (x > y)
  | _, _ => false

/-- The compare function handed to `sort`,
`(a, b) => namePositions[a.name] > namePositions[b.name]`; its boolean result
is read by `sort` as the number `1` or `0`. -/
def compareByPosition (positions : JSObject Int) (a b : Stream) : Int :=
  if jsGt (positions.get a.name) (positions.get b.name) then 1 else 0

/-- How a mutation, or the `try` block of the action, ends: it returns or it
throws, and either way it leaves a state behind. -/
inductive Completion where
  | returned (state : State)
  | thrown (state : State)
deriving DecidableEq, Repr

/-- The state that is left behind. -/
def Completion.state : Completion → State
  | .returned state => state
  | .thrown state => state

namespace Mutations

def updateScenarioSpec (state : State) (scenarioSpec : String) : State :=
  { state with scenarioSpec := scenarioSpec }

def updateTesslaSpec (state : State) (tesslaSpec : String) : State :=
  { state with tesslaSpec := tesslaSpec }

/-- The settings after the two loops over `removedStreams` and `newStreams`. -/
def reconciledSettings (state : State) (plainStreams : JSObject Stream) : JSObject Settings :=
  let previousStreams := JSObject.values state._streams
  let currentStreams := JSObject.values plainStreams
  let newStreams := differenceBy currentStreams previousStreams id
  let removedStreams := differenceBy previousStreams currentStreams id
  let settings := removedStreams.foldl (fun o stream => JSObject.delete o stream.name)
    state.streamSettings
  newStreams.foldl (fun o stream => JSObject.define o stream.name (defaultSettings stream))
    settings

/-- The object `orderedStreams` built from the sorted array. -/
def orderedStreams (sorted : List Stream) : JSObject Stream :=
  sorted.foldl (fun o s => JSObject.set o s.name s) []

/-- The mutation `updateStreams`. The settings are reconciled first; a search
that throws ends the mutation there, before `_streams` is assigned. -/
def updateStreams (rt : JSRuntime) (state : State) (plainStreams : JSObject Stream) :
    Completion :=
  let state := { state with streamSettings := reconciledSettings state plainStreams }
  let specsConcat := state.scenarioSpec ++ state.tesslaSpec
  match namePositions rt specsConcat (JSObject.values plainStreams) [] with
  | none => .thrown state
  | some positions =>
    .returned { state with
      _streams := orderedStreams
        (rt.sort (compareByPosition positions) (JSObject.values plainStreams)) }

def updateErrors (state : State) (errors : List ErrorDescription) : State :=
  { state with errors := errors }

def updatePendingSimulation (state : State) (pending : Option PromiseId) : State :=
  { state with pendingSimulation := pending }

def clearPendingSimulation (state : State) : State :=
  { state with pendingSimulation := none }

def updateClock (state : State) (clock : Option ℚ) : State :=
  { state with clock := clock }

/-- The state that the mutation `setStreamStyle` leaves behind. Without a
settings object for the stream, `Vue.set` is not handed an object of the state
(it throws when handed `undefined`), and the state stays as it is. -/
def setStreamStyle (state : State) (stream : Stream) (style : String) : State :=
  match state.streamSettings.get stream.name with
  | none => state
  | some _ =>
    { state with
      streamSettings := state.streamSettings.define stream.name { style := some style } }

end Mutations

/-- A mutation of the store together with its payload. -/
inductive Mutation where
  | updateScenarioSpec (scenarioSpec : String)
  | updateTesslaSpec (tesslaSpec : String)
  | updateStreams (plainStreams : JSObject Stream)
  | updateErrors (errors : List ErrorDescription)
  | updatePendingSimulation (pending : Option PromiseId)
  | clearPendingSimulation
  | updateClock (clock : Option ℚ)
  | setStreamStyle (stream : Stream) (style : String)

/-- The state that the call `commit(mutation, payload)` leaves behind, whether
the mutation returns or throws. -/
def commit (rt : JSRuntime) (state : State) : Mutation → State
  | .updateScenarioSpec s => Mutations.updateScenarioSpec state s
  | .updateTesslaSpec s => Mutations.updateTesslaSpec state s
  | .updateStreams plainStreams => (Mutations.updateStreams rt state plainStreams).state
  | .updateErrors errors => Mutations.updateErrors state errors
  | .updatePendingSimulation pending => Mutations.updatePendingSimulation state pending
  | .clearPendingSimulation => Mutations.clearPendingSimulation state
  | .updateClock clock => Mutations.updateClock state clock
  | .setStreamStyle stream style => Mutations.setStreamStyle state stream style

/-! ### The action `triggerRemoteSimulation` -/

/-- The JSON body of a successful response: `{streams}` or `{errors}`. -/
inductive SimulationResult where
  | streams (streams : JSObject Stream)
  | errors (errors : List ErrorDescription)

/-- How the promise of `Api.simulate` settles: fulfilled with a result, or
rejected (network error or a response that is not ok). -/
inductive Outcome where
  | fulfilled (result : SimulationResult)
  | rejected

namespace Actions

/-- The action up to its `await`: the new promise `pending` is stored. -/
def triggerRemoteSimulationStart (rt : JSRuntime) (state : State) (pending : PromiseId) :
    State :=
  commit rt state (.updatePendingSimulation (some pending))

/-- The body of the `try` block after `await pending` has returned `result`.
When `commit('updateStreams', ...)` throws, the block is left with the state
of that moment. -/
def triggerRemoteSimulationTry (rt : JSRuntime) (state : State) (pending : PromiseId)
    (result : SimulationResult) : Completion :=
  if some pending ≠ state.pendingSimulation then
    .returned state
  else
    match result with
    | .streams streams =>
      let state := commit rt state (.updateErrors [])
      match Mutations.updateStreams rt state streams with
      | .thrown state => .thrown state
      | .returned state =>
        if state.clock = none then
          let firstValue := Getters.firstValue state
          .returned (commit rt state (.updateClock (some (match firstValue with
            | some first => first.t
            | none => 0))))
        else
          .returned state
    | .errors errors => .returned (commit rt state (.updateErrors errors))

/-- The state after the action has run from the moment its promise `pending`
settles: the `try` block (left at once when the promise is rejected), then the
`finally` block, which runs however the `try` block is left. -/
def triggerRemoteSimulationResume (rt : JSRuntime) (state : State) (pending : PromiseId) :
    Outcome → State
  | .rejected => commit rt state .clearPendingSimulation
  | .fulfilled result =>
    commit rt (triggerRemoteSimulationTry rt state pending result).state
      .clearPendingSimulation

end Actions

/-! ### The store with its requests in flight -/

/-- The store together with the promises of `Api.simulate`: `issued` counts the
calls made so far (the promise of call number `n` is `n`), `inFlight` lists the
promises that have not settled. -/
structure System where
  store : State
  issued : Nat
  inFlight : List PromiseId

def initialSystem : System :=
  { store := initialState, issued := 0, inFlight := [] }

/-- What can happen to the store: the action is dispatched, a promise in
flight settles, or the user interface commits one of its mutations. -/
inductive Event where
  | trigger
  | settle (pending : PromiseId) (outcome : Outcome)
  | updateScenarioSpec (scenarioSpec : String)
  | updateTesslaSpec (tesslaSpec : String)
  | updateClock (clock : ℚ)
  | setStreamStyle (stream : Stream) (style : String)

/-- One event; `none` when a promise settles that is not in flight. -/
def step (rt : JSRuntime) (sys : System) : Event → Option System
  | .trigger =>
    some { store := Actions.triggerRemoteSimulationStart rt sys.store sys.issued
           issued := sys.issued + 1
           inFlight := sys.issued :: sys.inFlight }
  | .settle pending outcome =>
    if pending ∈ sys.inFlight then
      some { sys with
        store := Actions.triggerRemoteSimulationResume rt sys.store pending outcome
        inFlight := sys.inFlight.erase pending }
    else none
  | .updateScenarioSpec s => some { sys with store := commit rt sys.store (.updateScenarioSpec s) }
  | .updateTesslaSpec s => some { sys with store := commit rt sys.store (.updateTesslaSpec s) }
  | .updateClock c => some { sys with store := commit rt sys.store (.updateClock (some c)) }
  | .setStreamStyle stream style =>
    some { sys with store := commit rt sys.store (.setStreamStyle stream style) }

/-- A sequence of events from a given system. -/
def run (rt : JSRuntime) : System → List Event → Option System
  | sys, [] => some sys
  | sys, ev :: rest =>
    match step rt sys ev with
    | none => none
    | some sys' => run rt sys' rest

/-- The stored promise, when there is one, is the one issued last. -/
def PendingIsLatest (sys : System) : Prop :=
  ∀ p, sys.store.pendingSimulation = some p → p + 1 = sys.issued

/-! ## Well-formed payloads and reachable stores -/

/-- The stream's `type` and `valueType` are among the constants of `Types`. -/
def WellTyped (s : Stream) : Prop :=
  (s.type = Types.SIGNAL ∨ s.type = Types.EVENTS) ∧
  (s.valueType = Types.BOOL ∨ s.valueType = Types.INT ∨ s.valueType = Types.FLOAT ∨
    s.valueType = Types.STRING ∨ s.valueType = Types.UNIT)

instance (s : Stream) : Decidable (WellTyped s) := by
  unfold WellTyped; infer_instance

/-- A stream mapping as the backend delivers it: the streams have pairwise
distinct names and are well typed. -/
def WellFormedStreams (plainStreams : JSObject Stream) : Prop :=
  ((JSObject.values plainStreams).map Stream.name).Nodup ∧
  ∀ s ∈ JSObject.values plainStreams, WellTyped s

instance (plainStreams : JSObject Stream) : Decidable (WellFormedStreams plainStreams) := by
  unfold WellFormedStreams; infer_instance

/-- The payload of the mutation is well formed: a stream mapping handed to
`updateStreams` is; the other payloads are unconstrained. -/
def Mutation.WellFormed : Mutation → Prop
  | .updateStreams plainStreams => WellFormedStreams plainStreams
  | _ => True

instance (m : Mutation) : Decidable m.WellFormed := by
  cases m <;> unfold Mutation.WellFormed <;> infer_instance

/-- The state after a sequence of mutations has been committed. -/
def commitAll (rt : JSRuntime) (state : State) (mutations : List Mutation) : State :=
  mutations.foldl (commit rt) state

/-- Every settings entry belongs to a current stream, and the current streams
are well typed. -/
def SettingsMatchStreams (state : State) : Prop :=
  (∀ k ∈ state.streamSettings.keys, ∃ s ∈ JSObject.values state._streams, s.name = k) ∧
  ∀ s ∈ JSObject.values state._streams, WellTyped s

/-! ## A reference runtime

A concrete `JSRuntime` on which the store can be evaluated: a pattern search
for the patterns that `updateStreams` builds, and a stable insertion sort. -/

/-- White space in the sense of the pattern `\s`. -/
def isSpace (c : Char) : Bool :=
  decide (c.toNat ∈ [9, 10, 11, 12, 13, 32, 160, 5760, 8192, 8193, 8194, 8195, 8196, 8197,
    8198, 8199, 8200, 8201, 8202, 8232, 8233, 8239, 8287, 12288, 65279])

/-- The items of the patterns built by `updateStreams` for a name and a value
type made of letters, digits and `_`: a character standing for itself (also
a punctuation character with a backslash in front, as in `\:`), `\s` and
`\s*`. -/
inductive PatternItem where
  | char (c : Char)
  | space
  | spaces
deriving DecidableEq, Repr

/-- Where the reader of a pattern stands: in plain text, behind a backslash, or
behind `\s`. -/
inductive ParseState where
  | plain
  | escape
  | escapeS

/-- The characters with a meaning of their own in a regular expression. -/
def isSpecial (c : Char) : Bool :=
  decide (c ∈ ['(', ')', '[', ']', '{', '}', '.', '*', '+', '?', '^', '$', '|'])

/-- Reads the source text of a pattern into its items. The result is `none`
for a pattern with a special character or with an escape other than `\s` and
a punctuation character; such a pattern is outside what this reader covers.
Among them are the patterns with an unclosed `(`, which no engine accepts. -/
def parsePattern : ParseState → List Char → Option (List PatternItem)
  | .plain, [] => some []
  | .plain, c :: rest =>
    if c = '\\' then parsePattern .escape rest
    else if isSpecial c then none
    else (parsePattern .plain rest).map (fun items => .char c :: items)
  | .escape, [] => none
  | .escape, c :: rest =>
    if c = 's' then parsePattern .escapeS rest
    else if c.isAlphanum then none
    else (parsePattern .plain rest).map (fun items => .char c :: items)
  | .escapeS, [] => some [.space]
  | .escapeS, c :: rest =>
    if c = '*' then (parsePattern .plain rest).map (fun items => .spaces :: items)
    else if c = '\\' then (parsePattern .escape rest).map (fun items => .space :: items)
    else if isSpecial c then none
    else (parsePattern .plain rest).map (fun items => .space :: .char c :: items)

/-- Whether `k` accepts the text after some number of leading white space
characters have been skipped. -/
def matchSpaces (k : List Char → Bool) : List Char → Bool
  | [] => k []
  | c :: cs => k (c :: cs) || (isSpace c && matchSpaces k cs)

/-- Whether the pattern matches a prefix of the text. -/
def matchHere : List PatternItem → List Char → Bool
  | [], _ => true
  | .char c :: items, text =>
    match text with
    | [] => false
    | x :: xs => x == c && matchHere items xs
  | .space :: items, text =>
    match text with
    | [] => false
    | x :: xs => isSpace x && matchHere items xs
  | .spaces :: items, text => matchSpaces (matchHere items) text

/-- The first position from `i` on at which the pattern matches, `-1` without.
Positions count UTF-16 code units: a character above `U+FFFF` takes two. -/
def searchFrom (items : List PatternItem) : List Char → Nat → Int
  | [], i => if matchHere items [] then i else -1
  | c :: cs, i =>
    if matchHere items (c :: cs) then i
    else searchFrom items cs (i + (if c.toNat ≥ 65536 then 2 else 1))

/-- The call `text.search(pattern)` for the patterns that `parsePattern` reads. -/
def patternSearch (text pattern : String) : Option Int :=
  (parsePattern .plain pattern.data).map (fun items => searchFrom items text.data 0)

/-- Puts `x` into a sorted run that is kept in reverse order: `x` moves towards
the front of the array past every element that it compares less than, that
is, for which `comparefn` returns a negative number. -/
def insertBack {α : Type} (comparefn : α → α → Int) (x : α) : List α → List α
  | [] => [x]
  | y :: ys => if comparefn x y < 0 then y :: insertBack comparefn x ys else x :: y :: ys

/-- A stable insertion sort driven by the sign test `comparefn(x, y) < 0`, the
test on which the binary insertion and the merges of V8's `Array.prototype.sort`
(version 7.0 and later) move an element. -/
def insertionSort {α : Type} (comparefn : α → α → Int) (array : List α) : List α :=
  (array.foldl (fun run x => insertBack comparefn x run) []).reverse

def referenceRuntime : JSRuntime :=
  { search := patternSearch, sort := insertionSort }

/-- Relational operators for the examples: two numbers are compared
numerically; between other operands, which the examples do not have, neither
relation holds. -/
def referenceRelational : JSRelational :=
  { lt := fun a b =>
      match a, b with
      | .num x, .num y => decide (x < y)
      | _, _ => false
    gt := fun a b =>
      match a, b with
      | .num x, .num y => decide (x > y)
      | _, _ => false }

/-! ## Example data -/

/-- The stream of the example scenario: a signal `x` of type `Int` that
changes to 5 at time 1 and to 7 at time 3, with initial value 0. -/
def exampleSignal : Stream :=
  { name := "x", type := Types.SIGNAL, valueType := Types.INT
    values := [⟨1, .num 5⟩, ⟨3, .num 7⟩], initialValue := .num 0 }

/-- An event stream `e` of type `Int` with events at the times 1 and 3. -/
def exampleEvents : Stream :=
  { name := "e", type := Types.EVENTS, valueType := Types.INT
    values := [⟨1, .num 5⟩, ⟨3, .num 7⟩], initialValue := .num 9 }

/-- A signal `z` of type `Int` that changes to 0 at time 1, with initial
value 5. -/
def zeroSignal : Stream :=
  { name := "z", type := Types.SIGNAL, valueType := Types.INT
    values := [⟨1, .num 0⟩], initialValue := .num 5 }

/-- The signal `a` of the payload `orderPayload`. -/
def streamA : Stream :=
  { name := "a", type := Types.SIGNAL, valueType := Types.INT
    values := [⟨1, .num 5⟩], initialValue := .null }

/-- The signal `b` of the payload `orderPayload`. -/
def streamB : Stream :=
  { name := "b", type := Types.SIGNAL, valueType := Types.INT
    values := [⟨2, .num 6⟩], initialValue := .null }

/-- A `streams` payload that lists `a` before `b`. -/
def orderPayload : JSObject Stream :=
  [("a", streamA), ("b", streamB)]

/-- A specification that defines `b` before `a`. -/
def orderSpec : String :=
  "define b := 1\ndefine a := 2"

/-- The system after the action has been dispatched twice (requests 0 and 1)
and before either response has arrived. -/
def twoRequestsInFlight : System :=
  { store := { initialState with pendingSimulation := some 1 }
    issued := 2
    inFlight := [1, 0] }

/-- An example history of the store: the specification `orderSpec` is entered
and the payload `orderPayload` stored. -/
def exampleMutations : List Mutation :=
  [.updateTesslaSpec orderSpec, .updateStreams orderPayload]

/-- A later payload: `a` has become a `Float` signal, `b` is gone and an event
stream `c` is new. -/
def laterPayload : JSObject Stream :=
  [("c", { name := "c", type := Types.EVENTS, valueType := Types.UNIT
           values := [], initialValue := .null }),
   ("a", { name := "a", type := Types.SIGNAL, valueType := Types.FLOAT
           values := [⟨1, .num 5⟩], initialValue := .null })]

/-- A store in which request 7 is the pending one and the clock stands at 0. -/
def clockedState : State :=
  { initialState with pendingSimulation := some 7, clock := some 0 }

/-- A numeric signal without values. -/
def emptySignal : Stream :=
  { name := "n", type := Types.SIGNAL, valueType := Types.FLOAT
    values := [], initialValue := .num 4 }

/-- A string signal. -/
def stringSignal : Stream :=
  { name := "s", type := Types.SIGNAL, valueType := Types.STRING
    values := [⟨1, .str "up"⟩], initialValue := .str "down" }

/-- The stream `a` of `orderPayload` as a later simulation delivers it, with
one more value. -/
def streamALater : Stream :=
  { streamA with values := [⟨1, .num 5⟩, ⟨4, .num 8⟩] }

/-- A store in which request 3 is the pending one and the clock is not set. -/
def freshState : State :=
  { initialState with pendingSimulation := some 3 }

/-- The event stream `c` of `laterPayload`. -/
def streamC : Stream :=
  { name := "c", type := Types.EVENTS, valueType := Types.UNIT
    values := [], initialValue := .null }

/-- The signal `a` of `laterPayload`, now of value type `Float`. -/
def streamAFloat : Stream :=
  { name := "a", type := Types.SIGNAL, valueType := Types.FLOAT
    values := [⟨1, .num 5⟩], initialValue := .null }

/-- An example history in which the user picks the style `smooth` for `a`
after the payload `orderPayload` has been stored. -/
def styledMutations : List Mutation :=
  [.updateTesslaSpec orderSpec, .updateStreams orderPayload,
    .setStreamStyle streamA Styles.SMOOTH]

/-- A payload in which `a` is unchanged in name, type and value type (it has
one more value) and `b` has become an event stream. -/
def changedPayload : JSObject Stream :=
  [("a", streamALater),
   ("b", { streamB with type := Types.EVENTS })]

/-- Both patterns built for the stream are valid regular expressions: the two
searches return on every text. -/
def PatternsCompile (rt : JSRuntime) (s : Stream) : Prop :=
  ∀ text, (rt.search text (regexpSce s)).isSome = true ∧
    (rt.search text (regexpTes s)).isSome = true

/-- A stream mapping that `updateStreams` stores whole: no stream is named
`__proto__`, and the patterns of every stream are valid regular expressions. -/
def Storable (rt : JSRuntime) (plainStreams : JSObject Stream) : Prop :=
  ∀ s ∈ JSObject.values plainStreams, s.name ≠ "__proto__" ∧ PatternsCompile rt s

/-- The payload of the mutation is stored whole: a stream mapping handed to
`updateStreams` is `Storable`; the other payloads are unconstrained. -/
def Mutation.Storable (rt : JSRuntime) : Mutation → Prop
  | .updateStreams plainStreams => TeSSLaSim.Storable rt plainStreams
  | _ => True

/-- A signal named `__proto__` with a value at time 0. -/
def protoStream : Stream :=
  { name := "__proto__", type := Types.SIGNAL, valueType := Types.INT
    values := [⟨0, .num 1⟩], initialValue := .null }

/-- A `streams` payload with the signals `a` and `__proto__`. -/
def protoPayload : JSObject Stream :=
  [("a", streamA), ("__proto__", protoStream)]

/-- A `streams` payload with the signal `a` alone. -/
def singlePayload : JSObject Stream :=
  [("a", streamA)]

/-- A signal whose name `a(` makes both patterns invalid regular expressions. -/
def unclosedStream : Stream :=
  { name := "a(", type := Types.SIGNAL, valueType := Types.INT
    values := [⟨1, .num 5⟩], initialValue := .null }

/-- A `streams` payload with the signal `a(` alone. -/
def unclosedPayload : JSObject Stream :=
  [("a(", unclosedStream)]

/-- A `streams` payload with the signal `b` alone. -/
def otherPayload : JSObject Stream :=
  [("b", streamB)]

/-- An example history in which the payload with `a` and `__proto__` is stored
and the user then picks the style `smooth` for `__proto__`. -/
def protoStyledMutations : List Mutation :=
  [.updateStreams protoPayload, .setStreamStyle protoStream Styles.SMOOTH]

/-! # Theorems -/

/-! ## Lemmas on the three scans -/

theorem ascending_tail {e : Entry} {vs : List Entry} (h : Ascending (e :: vs)) :
    Ascending vs :=
  (List.pairwise_cons.mp h).2

theorem ascending_head_lt {e : Entry} {vs : List Entry} (h : Ascending (e :: vs)) :
    ∀ x ∈ vs, e.t < x.t :=
  (List.pairwise_cons.mp h).1

/-- In an ascending array an entry is determined by its timestamp. -/
theorem ascending_unique {vs : List Entry} (h : Ascending vs) :
    ∀ a ∈ vs, ∀ b ∈ vs, a.t = b.t → a = b := by
  induction vs with
  | nil => intro a ha; cases ha
  | cons e rest ih =>
    intro a ha b hb hab
    have hlt := ascending_head_lt h
    rcases List.mem_cons.mp ha with rfl | ha'
    · rcases List.mem_cons.mp hb with rfl | hb'
      · rfl
      · exact absurd hab (ne_of_lt (hlt b hb'))
    · rcases List.mem_cons.mp hb with rfl | hb'
      · exact absurd hab.symm (ne_of_lt (hlt a ha'))
      · exact ih (ascending_tail h) a ha' b hb' hab

theorem valueAtLoop_cases (vs : List Entry) (t : ℚ) (h : Ascending vs) :
    (valueAtLoop vs t = none ∧ ∀ e ∈ vs, e.t ≠ t) ∨
      (∃ e, valueAtLoop vs t = some e ∧ e ∈ vs ∧ e.t = t) := by
  induction vs with
  | nil => left; exact ⟨rfl, fun e he => by cases he⟩
  | cons v rest ih =>
    have hlt := ascending_head_lt h
    unfold valueAtLoop
    by_cases h1 : v.t = t
    · right; exact ⟨v, by simp [h1], List.mem_cons_self _ _, h1⟩
    · by_cases h2 : v.t > t
      · left
        refine ⟨by simp [h1, h2], ?_⟩
        intro e he
        rcases List.mem_cons.mp he with rfl | he'
        · exact h1
        · exact ne_of_gt (lt_trans h2 (hlt e he'))
      · rcases ih (ascending_tail h) with ⟨hn, hall⟩ | ⟨e, hs, hmem, ht⟩
        · left
          refine ⟨by simp [h1, h2, hn], ?_⟩
          intro e he
          rcases List.mem_cons.mp he with rfl | he'
          · exact h1
          · exact hall e he'
        · right
          exact ⟨e, by simp [h1, h2, hs], List.mem_cons_of_mem _ hmem, ht⟩

theorem lastValueBeforeLoop_cases (vs : List Entry) (t : ℚ) (h : Ascending vs) :
    ∀ acc : Option Entry,
      (lastValueBeforeLoop acc vs t = acc ∧ ∀ e ∈ vs, t ≤ e.t) ∨
      (∃ e, lastValueBeforeLoop acc vs t = some e ∧ e ∈ vs ∧ e.t < t ∧
        ∀ x ∈ vs, x.t < t → x.t ≤ e.t) := by
  induction vs with
  | nil => intro acc; left; exact ⟨rfl, fun e he => by cases he⟩
  | cons v rest ih =>
    intro acc
    have hlt := ascending_head_lt h
    unfold lastValueBeforeLoop
    by_cases h1 : v.t ≥ t
    · left
      refine ⟨by simp [h1], ?_⟩
      intro e he
      rcases List.mem_cons.mp he with rfl | he'
      · exact h1
      · exact le_trans h1 (le_of_lt (hlt e he'))
    · have hv : v.t < t := lt_of_not_ge h1
      rcases ih (ascending_tail h) (some v) with ⟨hn, hall⟩ | ⟨e, hs, hmem, ht, hmax⟩
      · right
        refine ⟨v, by simp [h1, hn], List.mem_cons_self _ _, hv, ?_⟩
        intro x hx hxt
        rcases List.mem_cons.mp hx with rfl | hx'
        · exact le_refl _
        · exact absurd hxt (not_lt_of_ge (hall x hx'))
      · right
        refine ⟨e, by simp [h1, hs], List.mem_cons_of_mem _ hmem, ht, ?_⟩
        intro x hx hxt
        rcases List.mem_cons.mp hx with rfl | hx'
        · exact le_of_lt (hlt e hmem)
        · exact hmax x hx' hxt

theorem firstValueAfterLoop_cases (vs : List Entry) (t : ℚ) (h : Ascending vs) :
    (firstValueAfterLoop vs t = none ∧ ∀ e ∈ vs, e.t ≤ t) ∨
      (∃ e, firstValueAfterLoop vs t = some e ∧ e ∈ vs ∧ t < e.t ∧
        ∀ x ∈ vs, t < x.t → e.t ≤ x.t) := by
  induction vs with
  | nil => left; exact ⟨rfl, fun e he => by cases he⟩
  | cons v rest ih =>
    have hlt := ascending_head_lt h
    unfold firstValueAfterLoop
    by_cases h1 : v.t > t
    · right
      refine ⟨v, by simp [h1], List.mem_cons_self _ _, h1, ?_⟩
      intro x hx _
      rcases List.mem_cons.mp hx with rfl | hx'
      · exact le_refl _
      · exact le_of_lt (hlt x hx')
    · have hv : v.t ≤ t := le_of_not_gt h1
      rcases ih (ascending_tail h) with ⟨hn, hall⟩ | ⟨e, hs, hmem, ht, hmin⟩
      · left
        refine ⟨by simp [h1, hn], ?_⟩
        intro e he
        rcases List.mem_cons.mp he with rfl | he'
        · exact hv
        · exact hall e he'
      · right
        refine ⟨e, by simp [h1, hs], List.mem_cons_of_mem _ hmem, ht, ?_⟩
        intro x hx hxt
        rcases List.mem_cons.mp hx with rfl | hx'
        · exact absurd hxt (not_lt_of_ge hv)
        · exact hmin x hx' hxt

/-! ## Stream queries (stream.js) -/

/-- The result of `valueAt(t)` on ascending values, in terms of the entries. -/
theorem valueAt_characterised (s : Stream) (t : ℚ) (h : Ascending s.values) :
    (∀ e, s.valueAt t = some e ↔ (e ∈ s.values ∧ e.t = t)) ∧
    ((∃ e, s.valueAt t = some e) ↔ ∃ e ∈ s.values, e.t = t) ∧
    (s.valueAt t = none ↔ ∀ e ∈ s.values, e.t ≠ t) ∧
    (∀ a ∈ s.values, ∀ b ∈ s.values, a.t = t → b.t = t → a = b) := by
  have huniq := ascending_unique h
  have hsome : ∀ e, s.valueAt t = some e ↔ (e ∈ s.values ∧ e.t = t) := by
    intro e
    unfold Stream.valueAt
    rcases valueAtLoop_cases s.values t h with ⟨hn, hall⟩ | ⟨e0, hs, hmem, ht⟩
    · constructor
      · intro he; rw [hn] at he; cases he
      · rintro ⟨hm, het⟩; exact absurd het (hall e hm)
    · constructor
      · intro he
        rw [hs] at he
        cases he
        exact ⟨hmem, ht⟩
      · rintro ⟨hm, het⟩
        rw [hs, huniq e0 hmem e hm (ht.trans het.symm)]
  refine ⟨hsome, ?_, ?_, ?_⟩
  · constructor
    · rintro ⟨e, he⟩; exact ⟨e, (hsome e).mp he⟩
    · rintro ⟨e, hm, het⟩; exact ⟨e, (hsome e).mpr ⟨hm, het⟩⟩
  · constructor
    · intro hn e hm het
      have := (hsome e).mpr ⟨hm, het⟩
      rw [hn] at this; cases this
    · intro hall
      cases hv : s.valueAt t with
      | none => rfl
      | some e => exact absurd ((hsome e).mp hv).2 (hall e ((hsome e).mp hv).1)
  · intro a ha b hb hat hbt
    exact huniq a ha b hb (hat.trans hbt.symm)

/-- C7: on values strictly ascending in `t`, `valueAt(t)` returns the entry `e`
exactly when `e` is an entry of `values` with timestamp `t`; it returns an
entry iff such an entry exists and `null` iff none exists, and there is at
most one entry with timestamp `t` (so the early exit skips no match). -/
theorem valueAt_exact (s : Stream) (t : ℚ) (h : Ascending s.values) :
    (∀ e, s.valueAt t = some e ↔ (e ∈ s.values ∧ e.t = t)) ∧
    ((∃ e, s.valueAt t = some e) ↔ ∃ e ∈ s.values, e.t = t) ∧
    (s.valueAt t = none ↔ ∀ e ∈ s.values, e.t ≠ t) ∧
    (∀ a ∈ s.values, ∀ b ∈ s.values, a.t = t → b.t = t → a = b) :=
  valueAt_characterised s t h

theorem valueAt_exact_witness :
    Ascending exampleSignal.values ∧
      (exampleSignal.valueAt 3 = some ⟨3, .num 7⟩ ↔
        ((⟨3, .num 7⟩ : Entry) ∈ exampleSignal.values ∧ (⟨3, .num 7⟩ : Entry).t = 3)) :=
  ⟨by decide, (valueAt_exact exampleSignal 3 (by decide)).1 ⟨3, .num 7⟩⟩

/-- C8: on values strictly ascending in `t`, `lastValueBefore(t)` returns the
entry `e` exactly when `e` is an entry with `e.t < t` whose timestamp is
maximal among the entries with timestamp below `t`, and it returns `null` iff
no entry has a timestamp below `t`. -/
theorem lastValueBefore_maximal (s : Stream) (t : ℚ) (h : Ascending s.values) :
    (∀ e, s.lastValueBefore t = some e ↔
      (e ∈ s.values ∧ e.t < t ∧ ∀ x ∈ s.values, x.t < t → x.t ≤ e.t)) ∧
    (s.lastValueBefore t = none ↔ ∀ e ∈ s.values, ¬ e.t < t) := by
  have huniq := ascending_unique h
  unfold Stream.lastValueBefore
  rcases lastValueBeforeLoop_cases s.values t h none with
    ⟨hn, hall⟩ | ⟨e0, hs, hmem, ht, hmax⟩
  · refine ⟨fun e => ⟨?_, ?_⟩, ⟨fun _ e hm => not_lt_of_ge (hall e hm), fun _ => hn⟩⟩
    · intro he; rw [hn] at he; cases he
    · rintro ⟨hm, het, _⟩; exact absurd het (not_lt_of_ge (hall e hm))
  · refine ⟨fun e => ⟨?_, ?_⟩, ⟨?_, ?_⟩⟩
    · intro he
      rw [hs] at he
      cases he
      exact ⟨hmem, ht, hmax⟩
    · rintro ⟨hm, het, hmaxe⟩
      rw [hs, huniq e0 hmem e hm (le_antisymm (hmaxe e0 hmem ht) (hmax e hm het))]
    · intro hn; rw [hs] at hn; cases hn
    · intro hall; exact absurd ht (hall e0 hmem)

theorem lastValueBefore_maximal_witness :
    Ascending exampleSignal.values ∧
      (exampleSignal.lastValueBefore 2 = some ⟨1, .num 5⟩ ↔
        ((⟨1, .num 5⟩ : Entry) ∈ exampleSignal.values ∧ (⟨1, .num 5⟩ : Entry).t < 2 ∧
          ∀ x ∈ exampleSignal.values, x.t < 2 → x.t ≤ (⟨1, .num 5⟩ : Entry).t)) :=
  ⟨by decide, (lastValueBefore_maximal exampleSignal 2 (by decide)).1 ⟨1, .num 5⟩⟩

/-- C9: on values strictly ascending in `t`, `firstValueAfter(t)` returns the
entry `e` exactly when `e` is an entry with `t < e.t` whose timestamp is
minimal among the entries with timestamp above `t`, and it returns `null` iff
no entry has a timestamp above `t`. -/
theorem firstValueAfter_minimal (s : Stream) (t : ℚ) (h : Ascending s.values) :
    (∀ e, s.firstValueAfter t = some e ↔
      (e ∈ s.values ∧ t < e.t ∧ ∀ x ∈ s.values, t < x.t → e.t ≤ x.t)) ∧
    (s.firstValueAfter t = none ↔ ∀ e ∈ s.values, ¬ t < e.t) := by
  have huniq := ascending_unique h
  unfold Stream.firstValueAfter
  rcases firstValueAfterLoop_cases s.values t h with
    ⟨hn, hall⟩ | ⟨e0, hs, hmem, ht, hmin⟩
  · refine ⟨fun e => ⟨?_, ?_⟩, ⟨fun _ e hm => not_lt_of_ge (hall e hm), fun _ => hn⟩⟩
    · intro he; rw [hn] at he; cases he
    · rintro ⟨hm, het, _⟩; exact absurd het (not_lt_of_ge (hall e hm))
  · refine ⟨fun e => ⟨?_, ?_⟩, ⟨?_, ?_⟩⟩
    · intro he
      rw [hs] at he
      cases he
      exact ⟨hmem, ht, hmin⟩
    · rintro ⟨hm, het, hmine⟩
      rw [hs, huniq e0 hmem e hm (le_antisymm (hmin e hm het) (hmine e0 hmem ht))]
    · intro hn; rw [hs] at hn; cases hn
    · intro hall; exact absurd ht (hall e0 hmem)

theorem firstValueAfter_minimal_witness :
    Ascending exampleSignal.values ∧
      (exampleSignal.firstValueAfter 2 = some ⟨3, .num 7⟩ ↔
        ((⟨3, .num 7⟩ : Entry) ∈ exampleSignal.values ∧ 2 < (⟨3, .num 7⟩ : Entry).t ∧
          ∀ x ∈ exampleSignal.values, 2 < x.t → (⟨3, .num 7⟩ : Entry).t ≤ x.t)) :=
  ⟨by decide, (firstValueAfter_minimal exampleSignal 2 (by decide)).1 ⟨3, .num 7⟩⟩

/-- C10: for an EVENTS stream with values strictly ascending in `t`,
`computedValueAt(t)` is `_.get(valueAt(t), 'v', null)`: the `v` of the entry
with timestamp `t` when there is one, and `null` when there is none, whatever
the earlier entries and `initialValue` are. -/
theorem computedValueAt_events (s : Stream) (t : ℚ) (hty : s.type = Types.EVENTS)
    (h : Ascending s.values) :
    s.computedValueAt t = getV (s.valueAt t) ∧
    (∀ e ∈ s.values, e.t = t → s.computedValueAt t = e.v) ∧
    ((∀ e ∈ s.values, e.t ≠ t) → s.computedValueAt t = JSValue.null) := by
  have hne : s.type ≠ Types.SIGNAL := by
    rw [hty]; decide
  have hc : s.computedValueAt t = getV (s.valueAt t) := by
    simp [Stream.computedValueAt, hne]
  obtain ⟨hsome, _, hnone, _⟩ := valueAt_characterised s t h
  refine ⟨hc, ?_, ?_⟩
  · intro e hm het
    rw [hc, (hsome e).mpr ⟨hm, het⟩]; rfl
  · intro hall
    rw [hc, hnone.mpr hall]; rfl

theorem computedValueAt_events_witness :
    exampleEvents.type = Types.EVENTS ∧ Ascending exampleEvents.values ∧
      exampleEvents.computedValueAt 2 = getV (exampleEvents.valueAt 2) ∧
      ((∀ e ∈ exampleEvents.values, e.t ≠ 2) →
        exampleEvents.computedValueAt 2 = JSValue.null) :=
  ⟨by decide, by decide,
    (computedValueAt_events exampleEvents 2 (by decide) (by decide)).1,
    (computedValueAt_events exampleEvents 2 (by decide) (by decide)).2.2⟩

/-- What `computedValueAt(t)` does on a SIGNAL stream with values strictly
ascending in `t` whose entries carry no `null`: the `v` of the entry at `t`;
without one, the `v` of the last entry before `t` when that `v` is truthy;
and `initialValue` when that `v` is falsy or there is no entry before `t`. -/
theorem computedValueAt_signal_cases (s : Stream) (t : ℚ) (hty : s.type = Types.SIGNAL)
    (h : Ascending s.values) (hv : ∀ e ∈ s.values, e.v ≠ JSValue.null) :
    (∀ e ∈ s.values, e.t = t → s.computedValueAt t = e.v) ∧
    ((∀ e ∈ s.values, e.t ≠ t) → ∀ e, s.lastValueBefore t = some e →
      s.computedValueAt t = if e.v.truthy then e.v else s.initialValue) ∧
    ((∀ e ∈ s.values, e.t ≠ t) → s.lastValueBefore t = none →
      s.computedValueAt t = s.initialValue) := by
  obtain ⟨hsome, _, hnone, _⟩ := valueAt_characterised s t h
  refine ⟨?_, ?_, ?_⟩
  · intro e hm het
    have hne := hv e hm
    simp [Stream.computedValueAt, hty, (hsome e).mpr ⟨hm, het⟩, getV, hne]
  · intro hall e hl
    simp [Stream.computedValueAt, hty, hnone.mpr hall, hl, getV, JSValue.or]
  · intro hall hl
    simp [Stream.computedValueAt, hty, hnone.mpr hall, hl, getV, JSValue.or, JSValue.truthy]

/-- C1 (the code at the failing input): the signal `z` changes to 0 at time 1
and has initial value 5; at time 2 there is no entry, the last entry before
is the one at time 1 with `v = 0`, and `computedValueAt(2)` is the initial
value 5 and not the held value 0. -/
theorem computedValueAt_signal_zero_not_held :
    zeroSignal.type = Types.SIGNAL ∧ Ascending zeroSignal.values ∧
      zeroSignal.valueAt 2 = none ∧
      zeroSignal.lastValueBefore 2 = some ⟨1, .num 0⟩ ∧
      zeroSignal.computedValueAt 2 = .num 5 ∧
      zeroSignal.computedValueAt 2 ≠ .num 0 := by
  refine ⟨by decide, by decide, by decide, by decide, by decide, by decide⟩

/-! ## The request state machine (store.js, `triggerRemoteSimulation`) -/

theorem setStreamStyle_pendingSimulation (state : State) (stream : Stream) (style : String) :
    (Mutations.setStreamStyle state stream style).pendingSimulation =
      state.pendingSimulation := by
  unfold Mutations.setStreamStyle
  cases state.streamSettings.get stream.name <;> rfl

theorem resume_pendingSimulation (rt : JSRuntime) (state : State) (pending : PromiseId)
    (outcome : Outcome) :
    (Actions.triggerRemoteSimulationResume rt state pending outcome).pendingSimulation =
      none := by
  cases outcome <;> rfl

theorem step_pendingIsLatest (rt : JSRuntime) (sys sys' : System) (ev : Event)
    (hstep : step rt sys ev = some sys') (hinv : PendingIsLatest sys) :
    PendingIsLatest sys' := by
  cases ev with
  | trigger =>
    simp only [step, Option.some.injEq] at hstep
    subst hstep
    intro p hp
    simp only [Actions.triggerRemoteSimulationStart, commit,
      Mutations.updatePendingSimulation, Option.some.injEq] at hp
    simp [hp]
  | settle pending outcome =>
    simp only [step] at hstep
    split at hstep
    · simp only [Option.some.injEq] at hstep
      subst hstep
      intro p hp
      simp only [resume_pendingSimulation] at hp
      cases hp
    · cases hstep
  | updateScenarioSpec s =>
    simp only [step, Option.some.injEq] at hstep
    subst hstep
    exact hinv
  | updateTesslaSpec s =>
    simp only [step, Option.some.injEq] at hstep
    subst hstep
    exact hinv
  | updateClock c =>
    simp only [step, Option.some.injEq] at hstep
    subst hstep
    exact hinv
  | setStreamStyle stream style =>
    simp only [step, Option.some.injEq] at hstep
    subst hstep
    intro p hp
    simp only [commit, setStreamStyle_pendingSimulation] at hp
    exact hinv p hp

theorem run_pendingIsLatest (rt : JSRuntime) (evs : List Event) :
    ∀ sys sys' : System, run rt sys evs = some sys' → PendingIsLatest sys →
      PendingIsLatest sys' := by
  induction evs with
  | nil =>
    intro sys sys' hrun hinv
    simp only [run, Option.some.injEq] at hrun
    subst hrun
    exact hinv
  | cons ev rest ih =>
    intro sys sys' hrun hinv
    simp only [run] at hrun
    cases hstep : step rt sys ev with
    | none => rw [hstep] at hrun; cases hrun
    | some mid =>
      rw [hstep] at hrun
      exact ih mid sys' hrun (step_pendingIsLatest rt sys mid ev hstep hinv)

theorem initialSystem_pendingIsLatest : PendingIsLatest initialSystem := by
  intro p hp
  cases hp

/-- C4: in every state reached from the initial one by dispatching the action,
settling promises in flight and user edits, if request `a` is still in flight
and a newer request `b` has been issued, then the step in which `a` settles
(with any outcome) is taken and leaves `_streams`, `errors`, `clock` and
`streamSettings` as they were. -/
theorem stale_response_discarded (rt : JSRuntime) (evs : List Event) (sys : System)
    (hrun : run rt initialSystem evs = some sys) (a b : PromiseId)
    (ha : a ∈ sys.inFlight) (hab : a < b) (hb : b < sys.issued) (outcome : Outcome) :
    ∃ sys', step rt sys (.settle a outcome) = some sys' ∧
      sys'.store._streams = sys.store._streams ∧
      sys'.store.errors = sys.store.errors ∧
      sys'.store.clock = sys.store.clock ∧
      sys'.store.streamSettings = sys.store.streamSettings := by
  have hinv := run_pendingIsLatest rt evs initialSystem sys hrun initialSystem_pendingIsLatest
  have hstale : some a ≠ sys.store.pendingSimulation := by
    intro h
    have h1 : a + 1 = sys.issued := hinv a h.symm
    have h2 : b < a + 1 := h1 ▸ hb
    exact Nat.lt_irrefl _ (Nat.lt_of_lt_of_le h2 hab)
  have hstep : step rt sys (.settle a outcome) =
      some { sys with
        store := Actions.triggerRemoteSimulationResume rt sys.store a outcome
        inFlight := sys.inFlight.erase a } := by
    simp only [step, if_pos ha]
  refine ⟨_, hstep, ?_⟩
  cases outcome with
  | rejected => exact ⟨rfl, rfl, rfl, rfl⟩
  | fulfilled result =>
    simp only [Actions.triggerRemoteSimulationResume, Actions.triggerRemoteSimulationTry,
      if_pos hstale]
    exact ⟨rfl, rfl, rfl, rfl⟩

theorem stale_response_discarded_witness :
    ∃ sys', step referenceRuntime twoRequestsInFlight
        (.settle 0 (.fulfilled (.streams orderPayload))) = some sys' ∧
      sys'.store._streams = twoRequestsInFlight.store._streams ∧
      sys'.store.errors = twoRequestsInFlight.store.errors ∧
      sys'.store.clock = twoRequestsInFlight.store.clock ∧
      sys'.store.streamSettings = twoRequestsInFlight.store.streamSettings :=
  stale_response_discarded referenceRuntime [.trigger, .trigger] twoRequestsInFlight rfl 0 1
    (by decide) (by decide) (by decide) (.fulfilled (.streams orderPayload))

/-- C2 (the code at the failing input): requests 0 and 1 are issued, then 0
settles. Request 1 is still in flight and is the most recently issued one, yet
`pendingSimulation` is `null`; when request 1 then is fulfilled with errors,
the error list of the store stays empty: the result is dropped. -/
theorem latest_request_dropped_after_stale_settles :
    (run referenceRuntime initialSystem
        [.trigger, .trigger, .settle 0 (.fulfilled (.errors ["stale"]))]).map
      (fun sys => (sys.issued, sys.inFlight, sys.store.pendingSimulation)) =
        some (2, [1], none) ∧
    (run referenceRuntime initialSystem
        [.trigger, .trigger, .settle 0 (.fulfilled (.errors ["stale"])),
          .settle 1 (.fulfilled (.errors ["fresh"]))]).map
      (fun sys => sys.store.errors) = some [] := by
  constructor <;> rfl

/-- C3 (the code at the failing input): with requests 0 and 1 in flight,
`pendingSimulation` refers to the newer request 1; when request 0 finishes
(here: its promise is rejected) `pendingSimulation` is `null` all the same. -/
theorem finally_clears_newer_pending :
    (run referenceRuntime initialSystem [.trigger, .trigger]).map
      (fun sys => sys.store.pendingSimulation) = some (some 1) ∧
    (run referenceRuntime initialSystem [.trigger, .trigger, .settle 0 .rejected]).map
      (fun sys => sys.store.pendingSimulation) = some none := by
  constructor <;> rfl

/-! ## The stream identity key -/

/-- A value type at the end of a string determines the value type and what
stands before it. -/
theorem append_valueType_injective (x y va vb : String)
    (ha : va = Types.BOOL ∨ va = Types.INT ∨ va = Types.FLOAT ∨ va = Types.STRING ∨
      va = Types.UNIT)
    (hb : vb = Types.BOOL ∨ vb = Types.INT ∨ vb = Types.FLOAT ∨ vb = Types.STRING ∨
      vb = Types.UNIT)
    (h : x ++ va = y ++ vb) : x = y ∧ va = vb := by
  have h1 := congrArg (fun s => s.data.reverse) h
  rcases ha with rfl | rfl | rfl | rfl | rfl <;>
    rcases hb with rfl | rfl | rfl | rfl | rfl <;>
    simp [Types.BOOL, Types.INT, Types.FLOAT, Types.STRING, Types.UNIT,
      String.data_append, List.reverse_append] at h1 <;>
    exact ⟨String.ext h1, rfl⟩

/-- A stream type at the end of a string determines the stream type and what
stands before it. -/
theorem append_type_injective (x y ta tb : String)
    (ha : ta = Types.SIGNAL ∨ ta = Types.EVENTS)
    (hb : tb = Types.SIGNAL ∨ tb = Types.EVENTS)
    (h : x ++ ta = y ++ tb) : x = y ∧ ta = tb := by
  have h1 := congrArg (fun s => s.data.reverse) h
  rcases ha with rfl | rfl <;> rcases hb with rfl | rfl <;>
    simp [Types.SIGNAL, Types.EVENTS, String.data_append, List.reverse_append] at h1 <;>
    exact ⟨String.ext h1, rfl⟩

theorem id_injective_of_wellTyped (a b : Stream) (ha : WellTyped a) (hb : WellTyped b)
    (h : id a = id b) :
    a.name = b.name ∧ a.type = b.type ∧ a.valueType = b.valueType := by
  obtain ⟨hat, hav⟩ := ha
  obtain ⟨hbt, hbv⟩ := hb
  unfold id at h
  obtain ⟨h1, hv⟩ := append_valueType_injective _ _ _ _ hav hbv h
  obtain ⟨hn, ht⟩ := append_type_injective _ _ _ _ hat hbt h1
  exact ⟨hn, ht, hv⟩

/-! ## Plain objects -/

theorem JSObject.mem_define {α : Type} (o : JSObject α) (k : String) (v : α) (p : String × α)
    (hp : p ∈ o.define k v) : p ∈ o ∨ p = (k, v) := by
  induction o with
  | nil =>
    simp only [JSObject.define, List.mem_singleton] at hp
    exact Or.inr hp
  | cons q rest ih =>
    obtain ⟨k0, v0⟩ := q
    simp only [JSObject.define] at hp
    split at hp
    · rcases List.mem_cons.mp hp with h | h
      · exact Or.inr h
      · exact Or.inl (List.mem_cons_of_mem _ h)
    · rcases List.mem_cons.mp hp with h | h
      · exact Or.inl (h ▸ List.mem_cons_self _ _)
      · rcases ih h with h' | h'
        · exact Or.inl (List.mem_cons_of_mem _ h')
        · exact Or.inr h'

theorem JSObject.mem_keys_define {α : Type} (o : JSObject α) (k : String) (v : α) (k' : String) :
    k' ∈ (o.define k v).keys ↔ k' ∈ o.keys ∨ k' = k := by
  induction o with
  | nil => simp [JSObject.define, JSObject.keys]
  | cons q rest ih =>
    obtain ⟨k0, v0⟩ := q
    simp only [JSObject.define]
    split
    · rename_i h
      subst h
      simp only [JSObject.keys, List.map_cons, List.mem_cons]
      tauto
    · simp only [JSObject.keys, List.map_cons, List.mem_cons] at ih ⊢
      rw [ih]
      tauto

theorem JSObject.mem_keys_delete {α : Type} (o : JSObject α) (k k' : String) :
    k' ∈ (o.delete k).keys ↔ k' ∈ o.keys ∧ k' ≠ k := by
  simp only [JSObject.delete, JSObject.keys, List.mem_map, List.mem_filter]
  constructor
  · rintro ⟨p, ⟨hp, hne⟩, rfl⟩
    exact ⟨⟨p, hp, rfl⟩, by simpa using hne⟩
  · rintro ⟨⟨p, hp, rfl⟩, hne⟩
    exact ⟨p, ⟨hp, by simpa using hne⟩, rfl⟩

theorem JSObject.mem_keys_of_get {α : Type} (o : JSObject α) (k : String) (v : α)
    (h : o.get k = some v) : k ∈ o.keys := by
  unfold JSObject.get at h
  cases hf : o.find? (fun p => p.1 == k) with
  | none => rw [hf] at h; cases h
  | some p =>
    have hm := List.mem_of_find?_eq_some hf
    have hk := List.find?_some hf
    simp only [beq_iff_eq] at hk
    exact List.mem_map.mpr ⟨p, hm, hk⟩

theorem mem_keys_foldl_delete {α : Type} (l : List Stream) :
    ∀ (o : JSObject α) (k : String),
      k ∈ (l.foldl (fun o stream => JSObject.delete o stream.name) o).keys ↔
        k ∈ o.keys ∧ k ∉ l.map Stream.name := by
  induction l with
  | nil => intro o k; simp
  | cons s rest ih =>
    intro o k
    simp only [List.foldl_cons, List.map_cons, List.mem_cons, not_or]
    rw [ih, JSObject.mem_keys_delete]
    tauto

theorem mem_keys_foldl_define {α : Type} (f : Stream → α) (l : List Stream) :
    ∀ (o : JSObject α) (k : String),
      k ∈ (l.foldl (fun o stream => JSObject.define o stream.name (f stream)) o).keys ↔
        k ∈ o.keys ∨ k ∈ l.map Stream.name := by
  induction l with
  | nil => intro o k; simp
  | cons s rest ih =>
    intro o k
    simp only [List.foldl_cons, List.map_cons, List.mem_cons]
    rw [ih, JSObject.mem_keys_define]
    tauto

theorem mem_foldl_define {α : Type} (f : Stream → α) (l : List Stream) :
    ∀ (o : JSObject α) (p : String × α),
      p ∈ l.foldl (fun o stream => JSObject.define o stream.name (f stream)) o →
        p ∈ o ∨ ∃ s ∈ l, p = (s.name, f s) := by
  induction l with
  | nil => intro o p hp; exact Or.inl hp
  | cons s rest ih =>
    intro o p hp
    simp only [List.foldl_cons] at hp
    rcases ih _ p hp with h | ⟨s', hs', hp'⟩
    · rcases JSObject.mem_define o s.name (f s) p h with h' | h'
      · exact Or.inl h'
      · exact Or.inr ⟨s, List.mem_cons_self _ _, h'⟩
    · exact Or.inr ⟨s', List.mem_cons_of_mem _ hs', hp'⟩

theorem mem_differenceBy {α β : Type} [DecidableEq β] (array values : List α)
    (iteratee : α → β) (x : α) :
    x ∈ differenceBy array values iteratee ↔
      x ∈ array ∧ iteratee x ∉ values.map iteratee := by
  simp [differenceBy, List.mem_filter]

/-! ## Reading a property -/

theorem JSObject.get_cons_self {α : Type} (rest : JSObject α) (k : String) (v : α) :
    JSObject.get ((k, v) :: rest) k = some v := by
  simp [JSObject.get, List.find?_cons]

theorem JSObject.get_cons_of_ne {α : Type} (rest : JSObject α) (k0 k : String) (v0 : α)
    (h : k0 ≠ k) : JSObject.get ((k0, v0) :: rest) k = JSObject.get rest k := by
  have hb : (k0 == k) = false := by simpa using h
  simp [JSObject.get, List.find?_cons, hb]

theorem JSObject.delete_cons_self {α : Type} (rest : JSObject α) (k : String) (v : α) :
    JSObject.delete ((k, v) :: rest) k = JSObject.delete rest k := by
  simp [JSObject.delete, List.filter_cons]

theorem JSObject.delete_cons_of_ne {α : Type} (rest : JSObject α) (k0 k : String) (v0 : α)
    (h : k0 ≠ k) :
    JSObject.delete ((k0, v0) :: rest) k = (k0, v0) :: JSObject.delete rest k := by
  simp [JSObject.delete, List.filter_cons, h]

theorem JSObject.get_define_self {α : Type} (o : JSObject α) (k : String) (v : α) :
    (o.define k v).get k = some v := by
  induction o with
  | nil => exact JSObject.get_cons_self [] k v
  | cons q rest ih =>
    obtain ⟨k0, v0⟩ := q
    by_cases h : k0 = k
    · simp only [JSObject.define, if_pos h]
      exact JSObject.get_cons_self rest k v
    · simp only [JSObject.define, if_neg h]
      rw [JSObject.get_cons_of_ne _ k0 k v0 h]
      exact ih

theorem JSObject.get_define_of_ne {α : Type} (o : JSObject α) (k k' : String) (v : α)
    (hne : k' ≠ k) : (o.define k v).get k' = o.get k' := by
  induction o with
  | nil =>
    simp only [JSObject.define]
    rw [JSObject.get_cons_of_ne [] k k' v (fun h => hne h.symm)]
  | cons q rest ih =>
    obtain ⟨k0, v0⟩ := q
    by_cases h : k0 = k
    · simp only [JSObject.define, if_pos h]
      rw [JSObject.get_cons_of_ne rest k k' v (fun h' => hne h'.symm),
        JSObject.get_cons_of_ne rest k0 k' v0 (fun h' => hne (h'.symm.trans h))]
    · simp only [JSObject.define, if_neg h]
      by_cases h3 : k0 = k'
      · subst h3
        rw [JSObject.get_cons_self, JSObject.get_cons_self]
      · rw [JSObject.get_cons_of_ne _ k0 k' v0 h3, JSObject.get_cons_of_ne _ k0 k' v0 h3]
        exact ih

theorem JSObject.get_delete_of_ne {α : Type} (o : JSObject α) (k k' : String)
    (hne : k' ≠ k) : (o.delete k).get k' = o.get k' := by
  induction o with
  | nil => rfl
  | cons q rest ih =>
    obtain ⟨k0, v0⟩ := q
    by_cases h : k0 = k
    · subst h
      rw [JSObject.delete_cons_self, JSObject.get_cons_of_ne rest k0 k' v0
        (fun h' => hne h'.symm)]
      exact ih
    · rw [JSObject.delete_cons_of_ne rest k0 k v0 h]
      by_cases h3 : k0 = k'
      · subst h3
        rw [JSObject.get_cons_self, JSObject.get_cons_self]
      · rw [JSObject.get_cons_of_ne _ k0 k' v0 h3, JSObject.get_cons_of_ne _ k0 k' v0 h3]
        exact ih

theorem foldl_delete_get {α : Type} (l : List Stream) :
    ∀ (o : JSObject α) (k : String), k ∉ l.map Stream.name →
      (l.foldl (fun o stream => JSObject.delete o stream.name) o).get k = o.get k := by
  induction l with
  | nil => intro o k _; rfl
  | cons x xs ih =>
    intro o k hk
    simp only [List.map_cons, List.mem_cons, not_or] at hk
    simp only [List.foldl_cons]
    rw [ih _ k hk.2, JSObject.get_delete_of_ne o x.name k hk.1]

theorem foldl_define_get_of_not_mem {α : Type} (f : Stream → α) (l : List Stream) :
    ∀ (o : JSObject α) (k : String), k ∉ l.map Stream.name →
      (l.foldl (fun o stream => JSObject.define o stream.name (f stream)) o).get k =
        o.get k := by
  induction l with
  | nil => intro o k _; rfl
  | cons x xs ih =>
    intro o k hk
    simp only [List.map_cons, List.mem_cons, not_or] at hk
    simp only [List.foldl_cons]
    rw [ih _ k hk.2, JSObject.get_define_of_ne o x.name k (f x) hk.1]

theorem foldl_define_get_of_mem {α : Type} (f : Stream → α) (l : List Stream) :
    ∀ (o : JSObject α) (s : Stream), (l.map Stream.name).Nodup → s ∈ l →
      (l.foldl (fun o stream => JSObject.define o stream.name (f stream)) o).get s.name =
        some (f s) := by
  induction l with
  | nil => intro o s _ hs; cases hs
  | cons x xs ih =>
    intro o s hnd hs
    obtain ⟨hx, hxs⟩ := List.nodup_cons.mp hnd
    simp only [List.foldl_cons]
    rcases List.mem_cons.mp hs with rfl | hs'
    · rw [foldl_define_get_of_not_mem f xs _ s.name hx, JSObject.get_define_self]
    · exact ih _ s hxs hs'

theorem eq_of_name_eq {l : List Stream} (hnd : (l.map Stream.name).Nodup) {a b : Stream}
    (ha : a ∈ l) (hb : b ∈ l) (h : a.name = b.name) : a = b :=
  List.inj_on_of_nodup_map hnd ha hb h

theorem differenceBy_names_nodup (array values : List Stream)
    (hnd : (array.map Stream.name).Nodup) :
    ((differenceBy array values id).map Stream.name).Nodup := by
  unfold differenceBy
  exact (List.Sublist.map Stream.name (List.filter_sublist array)).nodup hnd

theorem preselectStyle_table (type valueType : String) :
    (type = Types.SIGNAL →
      (valueType = Types.BOOL ∨ valueType = Types.INT ∨ valueType = Types.FLOAT) →
        preselectStyle type valueType = some Styles.STEP) ∧
    (type = Types.SIGNAL → valueType = Types.STRING →
        preselectStyle type valueType = some Styles.LIFELINE) ∧
    (type = Types.EVENTS → (valueType = Types.INT ∨ valueType = Types.FLOAT) →
        preselectStyle type valueType = some Styles.DISCRETE) ∧
    (type = Types.EVENTS →
      (valueType = Types.BOOL ∨ valueType = Types.STRING ∨ valueType = Types.UNIT) →
        preselectStyle type valueType = some Styles.SIMPLE) ∧
    (¬ ((type = Types.SIGNAL ∧ (valueType = Types.BOOL ∨ valueType = Types.INT ∨
          valueType = Types.FLOAT ∨ valueType = Types.STRING)) ∨
        (type = Types.EVENTS ∧ (valueType = Types.BOOL ∨ valueType = Types.INT ∨
          valueType = Types.FLOAT ∨ valueType = Types.STRING ∨ valueType = Types.UNIT))) →
        preselectStyle type valueType = none) := by
  refine ⟨?_, ?_, ?_, ?_, ?_⟩
  · rintro rfl (rfl | rfl | rfl) <;> decide
  · rintro rfl rfl; decide
  · rintro rfl (rfl | rfl) <;> decide
  · rintro rfl (rfl | rfl | rfl) <;> decide
  · intro h
    unfold preselectStyle
    split_ifs <;> first | rfl | (exfalso; apply h; tauto)

/-! ## The reference sort returns a permutation -/

theorem insertBack_perm {α : Type} (comparefn : α → α → Int) (x : α) (l : List α) :
    (insertBack comparefn x l).Perm (x :: l) := by
  induction l with
  | nil => exact List.Perm.refl _
  | cons y ys ih =>
    simp only [insertBack]
    split
    · exact ((List.Perm.cons y ih).trans (List.Perm.swap x y ys))
    · exact List.Perm.refl _

theorem foldl_insertBack_perm {α : Type} (comparefn : α → α → Int) (l : List α) :
    ∀ run : List α,
      (l.foldl (fun run x => insertBack comparefn x run) run).Perm (l ++ run) := by
  induction l with
  | nil => intro run; exact List.Perm.refl _
  | cons x xs ih =>
    intro run
    simp only [List.foldl_cons, List.cons_append]
    refine (ih _).trans ?_
    refine (List.Perm.append_left xs (insertBack_perm comparefn x run)).trans ?_
    exact List.perm_middle

theorem insertionSort_perm {α : Type} (comparefn : α → α → Int) (l : List α) :
    (insertionSort comparefn l).Perm l := by
  unfold insertionSort
  refine (List.reverse_perm _).trans ?_
  simpa using foldl_insertBack_perm comparefn l []

/-! ## Objects filled by assignment -/

theorem JSObject.set_of_ne_proto {α : Type} (o : JSObject α) (k : String) (v : α)
    (h : k ≠ "__proto__") : o.set k v = o.define k v := by
  simp [JSObject.set, h]

theorem JSObject.keys_define_nodup {α : Type} (o : JSObject α) (k : String) (v : α)
    (h : o.keys.Nodup) : (o.define k v).keys.Nodup := by
  induction o with
  | nil => simp [JSObject.define, JSObject.keys]
  | cons q rest ih =>
    obtain ⟨k0, v0⟩ := q
    have h' : k0 ∉ JSObject.keys rest ∧ (JSObject.keys rest).Nodup := by
      simpa [JSObject.keys] using h
    by_cases hk : k0 = k
    · subst hk
      simpa [JSObject.define, JSObject.keys] using h
    · simp only [JSObject.define, if_neg hk]
      have hnot : k0 ∉ JSObject.keys (JSObject.define rest k v) := by
        intro hmem
        rcases (JSObject.mem_keys_define rest k v k0).mp hmem with h1 | h1
        · exact h'.1 h1
        · exact hk h1
      have := ih h'.2
      simp only [JSObject.keys, List.map_cons, List.nodup_cons] at this ⊢
      exact ⟨hnot, this⟩

theorem JSObject.keys_set_nodup {α : Type} (o : JSObject α) (k : String) (v : α)
    (h : o.keys.Nodup) : (o.set k v).keys.Nodup := by
  unfold JSObject.set
  split
  · exact h
  · exact JSObject.keys_define_nodup o k v h

theorem JSObject.mem_set {α : Type} (o : JSObject α) (k : String) (v : α) (p : String × α)
    (hp : p ∈ o.set k v) : p ∈ o ∨ p = (k, v) := by
  unfold JSObject.set at hp
  split at hp
  · exact Or.inl hp
  · exact JSObject.mem_define o k v p hp

theorem foldl_set_mem (l : List Stream) :
    ∀ (o : JSObject Stream) (p : String × Stream),
      p ∈ l.foldl (fun o s => JSObject.set o s.name s) o →
        p ∈ o ∨ ∃ s ∈ l, p = (s.name, s) := by
  induction l with
  | nil => intro o p hp; exact Or.inl hp
  | cons s rest ih =>
    intro o p hp
    simp only [List.foldl_cons] at hp
    rcases ih _ p hp with h | ⟨s', hs', hp'⟩
    · rcases JSObject.mem_set o s.name s p h with h' | h'
      · exact Or.inl h'
      · exact Or.inr ⟨s, List.mem_cons_self _ _, h'⟩
    · exact Or.inr ⟨s', List.mem_cons_of_mem _ hs', hp'⟩

theorem foldl_set_keys_nodup (l : List Stream) :
    ∀ o : JSObject Stream, o.keys.Nodup →
      (l.foldl (fun o s => JSObject.set o s.name s) o).keys.Nodup := by
  induction l with
  | nil => intro o h; exact h
  | cons s rest ih =>
    intro o h
    exact ih _ (JSObject.keys_set_nodup o s.name s h)

/-- Every property of `orderedStreams` holds a stream of the array under the
name of that stream, and no two properties hold streams of the same name. -/
theorem orderedStreams_keyed (l : List Stream) :
    (∀ p ∈ Mutations.orderedStreams l, p.1 = p.2.name ∧ p.2 ∈ l) ∧
    ((JSObject.values (Mutations.orderedStreams l)).map Stream.name).Nodup := by
  have hmem : ∀ p ∈ Mutations.orderedStreams l, p.1 = p.2.name ∧ p.2 ∈ l := by
    intro p hp
    rcases foldl_set_mem l [] p hp with h | ⟨s, hs, rfl⟩
    · cases h
    · exact ⟨rfl, hs⟩
  refine ⟨hmem, ?_⟩
  have hkeys : (JSObject.keys (Mutations.orderedStreams l)).Nodup :=
    foldl_set_keys_nodup l [] (by simp [JSObject.keys])
  have heq : (JSObject.values (Mutations.orderedStreams l)).map Stream.name =
      JSObject.keys (Mutations.orderedStreams l) := by
    simp only [JSObject.values, JSObject.keys, List.map_map]
    apply List.map_congr_left
    intro p hp
    exact (hmem p hp).1.symm
  rw [heq]
  exact hkeys

theorem JSObject.define_of_not_mem {α : Type} (o : JSObject α) (k : String) (v : α)
    (h : k ∉ o.keys) : o.define k v = o ++ [(k, v)] := by
  induction o with
  | nil => rfl
  | cons q rest ih =>
    obtain ⟨k0, v0⟩ := q
    simp only [JSObject.keys, List.map_cons, List.mem_cons, not_or] at h
    have hne : ¬ k0 = k := fun h' => h.1 h'.symm
    simp only [JSObject.define, if_neg hne, List.cons_append]
    rw [ih h.2]

theorem foldl_set_of_nodup (l : List Stream) :
    ∀ o : JSObject Stream, (l.map Stream.name).Nodup →
      (∀ s ∈ l, s.name ≠ "__proto__") → (∀ s ∈ l, s.name ∉ o.keys) →
      l.foldl (fun o s => JSObject.set o s.name s) o =
        o ++ l.map (fun s => (s.name, s)) := by
  induction l with
  | nil => intro o _ _ _; simp
  | cons x xs ih =>
    intro o hnd hproto hdisj
    obtain ⟨hx, hxs⟩ := List.nodup_cons.mp hnd
    simp only [List.foldl_cons, List.map_cons]
    rw [JSObject.set_of_ne_proto o x.name x (hproto x (List.mem_cons_self _ _)),
      JSObject.define_of_not_mem o x.name x (hdisj x (List.mem_cons_self _ _))]
    rw [ih _ hxs (fun s hs => hproto s (List.mem_cons_of_mem _ hs))]
    · simp
    · intro s hs hmem
      simp only [JSObject.keys, List.map_append, List.map_cons, List.map_nil,
        List.mem_append, List.mem_singleton] at hmem
      rcases hmem with h | h
      · exact hdisj s (List.mem_cons_of_mem _ hs) h
      · exact hx (h ▸ List.mem_map.mpr ⟨s, hs, rfl⟩)

/-- With pairwise distinct names, none of them `__proto__`, `orderedStreams`
holds the whole array, each stream under its name. -/
theorem orderedStreams_of_storable (l : List Stream) (hnd : (l.map Stream.name).Nodup)
    (hproto : ∀ s ∈ l, s.name ≠ "__proto__") :
    Mutations.orderedStreams l = l.map (fun s => (s.name, s)) := by
  have h := foldl_set_of_nodup l [] hnd hproto (fun s _ hmem => by cases hmem)
  simpa [Mutations.orderedStreams] using h

theorem values_map_named (l : List Stream) :
    JSObject.values (l.map (fun s => (s.name, s))) = l := by
  simp [JSObject.values, Function.comp_def]

/-! ## The two ways in which `updateStreams` ends -/

theorem updateStreams_eq (rt : JSRuntime) (state : State) (plainStreams : JSObject Stream) :
    Mutations.updateStreams rt state plainStreams =
      match namePositions rt (state.scenarioSpec ++ state.tesslaSpec)
        (JSObject.values plainStreams) [] with
      | none =>
        .thrown { state with
          streamSettings := Mutations.reconciledSettings state plainStreams }
      | some positions =>
        .returned { state with
          streamSettings := Mutations.reconciledSettings state plainStreams
          _streams := Mutations.orderedStreams
            (rt.sort (compareByPosition positions) (JSObject.values plainStreams)) } := by
  rfl

theorem updateStreams_streamSettings (rt : JSRuntime) (state : State)
    (plainStreams : JSObject Stream) :
    (Mutations.updateStreams rt state plainStreams).state.streamSettings =
      Mutations.reconciledSettings state plainStreams := by
  rw [updateStreams_eq]
  cases namePositions rt (state.scenarioSpec ++ state.tesslaSpec)
    (JSObject.values plainStreams) [] <;> rfl

theorem updateStreams_clock (rt : JSRuntime) (state : State)
    (plainStreams : JSObject Stream) :
    (Mutations.updateStreams rt state plainStreams).state.clock = state.clock := by
  rw [updateStreams_eq]
  cases namePositions rt (state.scenarioSpec ++ state.tesslaSpec)
    (JSObject.values plainStreams) [] <;> rfl

/-- The stream mapping that `updateStreams` leaves behind: the old one when a
search throws, and otherwise `orderedStreams` of a permutation of the payload. -/
theorem updateStreams_streams_cases (rt : JSRuntime)
    (hsort : ∀ comparefn l, (rt.sort comparefn l).Perm l) (state : State)
    (plainStreams : JSObject Stream) :
    (Mutations.updateStreams rt state plainStreams).state._streams = state._streams ∨
    ∃ sorted : List Stream, sorted.Perm (JSObject.values plainStreams) ∧
      (Mutations.updateStreams rt state plainStreams).state._streams =
        Mutations.orderedStreams sorted := by
  rw [updateStreams_eq]
  cases namePositions rt (state.scenarioSpec ++ state.tesslaSpec)
      (JSObject.values plainStreams) [] with
  | none => exact Or.inl rfl
  | some positions => exact Or.inr ⟨_, hsort _ _, rfl⟩

theorem namePosition_isSome (rt : JSRuntime) (specsConcat : String) (s : Stream)
    (h : PatternsCompile rt s) : ∃ position, namePosition rt specsConcat s = some position := by
  obtain ⟨h1, h2⟩ := h specsConcat
  obtain ⟨sce, hsce⟩ := Option.isSome_iff_exists.mp h1
  obtain ⟨tes, htes⟩ := Option.isSome_iff_exists.mp h2
  exact ⟨max sce tes, by simp [namePosition, hsce, htes]⟩

theorem namePositions_isSome (rt : JSRuntime) (specsConcat : String) (l : List Stream)
    (h : ∀ s ∈ l, PatternsCompile rt s) :
    ∀ positions, ∃ result, namePositions rt specsConcat l positions = some result := by
  induction l with
  | nil => intro positions; exact ⟨positions, rfl⟩
  | cons x xs ih =>
    intro positions
    obtain ⟨position, hp⟩ :=
      namePosition_isSome rt specsConcat x (h x (List.mem_cons_self _ _))
    obtain ⟨result, hr⟩ := ih (fun s hs => h s (List.mem_cons_of_mem _ hs))
      (positions.set x.name position)
    exact ⟨result, by simp [namePositions, hp, hr]⟩

/-- A storable payload with pairwise distinct names is stored whole: the
mutation returns, and `_streams` holds a permutation of the payload, each
stream under its name. -/
theorem updateStreams_returned (rt : JSRuntime)
    (hsort : ∀ comparefn l, (rt.sort comparefn l).Perm l) (state : State)
    (plainStreams : JSObject Stream)
    (hnodup : ((JSObject.values plainStreams).map Stream.name).Nodup)
    (hstorable : Storable rt plainStreams) :
    ∃ sorted : List Stream, sorted.Perm (JSObject.values plainStreams) ∧
      Mutations.updateStreams rt state plainStreams =
        .returned { state with
          streamSettings := Mutations.reconciledSettings state plainStreams
          _streams := sorted.map (fun s => (s.name, s)) } := by
  obtain ⟨positions, hpos⟩ := namePositions_isSome rt
    (state.scenarioSpec ++ state.tesslaSpec) (JSObject.values plainStreams)
    (fun s hs => (hstorable s hs).2) []
  have hperm := hsort (compareByPosition positions) (JSObject.values plainStreams)
  refine ⟨_, hperm, ?_⟩
  rw [updateStreams_eq, hpos]
  simp only []
  rw [orderedStreams_of_storable _
    ((List.Perm.nodup_iff (hperm.map Stream.name)).mpr hnodup)
    (fun s hs => (hstorable s (hperm.mem_iff.mp hs)).1)]

/-! ## Stream ordering (store.js, `updateStreams`) -/

/-- The reference sort sorts: with a compare function that is the difference of
a numeric key, its result is ascending in that key. -/
theorem insertBack_descending {α : Type} (key : α → Int) (x : α) (l : List α)
    (h : l.Pairwise (fun a b => key b ≤ key a)) :
    (insertBack (fun a b => key a - key b) x l).Pairwise (fun a b => key b ≤ key a) := by
  induction l with
  | nil => simp [insertBack]
  | cons y ys ih =>
    obtain ⟨hy, hys⟩ := List.pairwise_cons.mp h
    simp only [insertBack]
    split
    · rename_i hlt
      refine List.pairwise_cons.mpr ⟨?_, ih hys⟩
      intro z hz
      rcases List.mem_cons.mp ((insertBack_perm _ x ys).mem_iff.mp hz) with rfl | hz'
      · omega
      · exact hy z hz'
    · rename_i hge
      refine List.pairwise_cons.mpr ⟨?_, h⟩
      intro z hz
      rcases List.mem_cons.mp hz with rfl | hz'
      · omega
      · have := hy z hz'
        omega

theorem foldl_insertBack_descending {α : Type} (key : α → Int) (l : List α) :
    ∀ run : List α, run.Pairwise (fun a b => key b ≤ key a) →
      (l.foldl (fun run x => insertBack (fun a b => key a - key b) x run) run).Pairwise
        (fun a b => key b ≤ key a) := by
  induction l with
  | nil => intro run h; exact h
  | cons x xs ih =>
    intro run h
    exact ih _ (insertBack_descending key x run h)

theorem insertionSort_sorted {α : Type} (key : α → Int) (l : List α) :
    (insertionSort (fun a b => key a - key b) l).Pairwise (fun a b => key a ≤ key b) := by
  unfold insertionSort
  rw [List.pairwise_reverse]
  exact foldl_insertBack_descending key l [] List.Pairwise.nil

/-- The compare function of `updateStreams` never returns a negative number. -/
theorem compareByPosition_nonneg (positions : JSObject Int) (a b : Stream) :
    0 ≤ compareByPosition positions a b := by
  unfold compareByPosition
  split <;> decide

theorem foldl_insertBack_of_nonneg {α : Type} (comparefn : α → α → Int)
    (h : ∀ a b, 0 ≤ comparefn a b) (l : List α) :
    ∀ run : List α,
      l.foldl (fun run x => insertBack comparefn x run) run = l.reverse ++ run := by
  induction l with
  | nil => intro run; rfl
  | cons x xs ih =>
    intro run
    have hx : insertBack comparefn x run = x :: run := by
      cases run with
      | nil => rfl
      | cons y ys =>
        simp only [insertBack]
        rw [if_neg (not_lt.mpr (h x y))]
    simp only [List.foldl_cons, hx, ih, List.reverse_cons, List.append_assoc,
      List.singleton_append]

/-- A sort that moves an element only on a negative comparison leaves the array
as it is when the compare function never returns a negative number. -/
theorem insertionSort_of_nonneg {α : Type} (comparefn : α → α → Int)
    (h : ∀ a b, 0 ≤ comparefn a b) (l : List α) :
    insertionSort comparefn l = l := by
  unfold insertionSort
  rw [foldl_insertBack_of_nonneg comparefn h l []]
  simp

/-- C6 (the code at the failing input): the specification defines `b` (found at
position 0) before `a` (found at position 14) and the payload lists `a` before
`b`. On the reference runtime, whose sort moves an element on a negative
comparison only, `_streams` after `updateStreams` still lists `a` before `b`:
the stream with sort key 14 comes before the stream with sort key 0. -/
theorem updateStreams_order_not_ascending :
    namePosition referenceRuntime orderSpec streamA = some 14 ∧
    namePosition referenceRuntime orderSpec streamB = some 0 ∧
    JSObject.values (Mutations.updateStreams referenceRuntime
      (Mutations.updateTesslaSpec initialState orderSpec) orderPayload).state._streams =
        [streamA, streamB] := by
  refine ⟨by decide, by decide, by decide⟩

/-! ## Committing a fresh result (store.js, `triggerRemoteSimulation`) -/

theorem try_keeps_clock (rt : JSRuntime) (state : State) (pending : PromiseId)
    (result : SimulationResult) (c : ℚ) (hclock : state.clock = some c) :
    (Actions.triggerRemoteSimulationTry rt state pending result).state.clock = some c := by
  unfold Actions.triggerRemoteSimulationTry
  split
  · exact hclock
  · cases result with
    | errors errors => exact hclock
    | streams streams =>
      have h : (Mutations.updateStreams rt (commit rt state (.updateErrors []))
          streams).state.clock = some c := by
        rw [updateStreams_clock]
        exact hclock
      simp only []
      cases hu : Mutations.updateStreams rt (commit rt state (.updateErrors [])) streams with
      | thrown st =>
        rw [hu] at h
        exact h
      | returned st =>
        rw [hu] at h
        have hst : st.clock = some c := h
        simp only [hst]
        rw [if_neg (by simp)]
        exact hst

/-- C12: when `state.clock` is a number `c` (0 included), the clock is still
`c` after a request has been resolved, whatever the request and whatever its
outcome: streams, errors or a rejected promise, stale or fresh. -/
theorem resolution_keeps_clock (rt : JSRuntime) (state : State) (pending : PromiseId)
    (outcome : Outcome) (c : ℚ) (hclock : state.clock = some c) :
    (Actions.triggerRemoteSimulationResume rt state pending outcome).clock = some c := by
  cases outcome with
  | rejected => exact hclock
  | fulfilled result => exact try_keeps_clock rt state pending result c hclock

theorem resolution_keeps_clock_witness :
    clockedState.clock = some 0 ∧
      (Actions.triggerRemoteSimulationResume referenceRuntime clockedState 7
        (.fulfilled (.streams orderPayload))).clock = some 0 :=
  ⟨rfl, resolution_keeps_clock referenceRuntime clockedState 7
    (.fulfilled (.streams orderPayload)) 0 rfl⟩

/-- C13: when the request that is fulfilled with `{errors}` is the pending one,
`state.errors` becomes the returned list and `_streams`, `clock` and
`streamSettings` stay as they were. -/
theorem errors_result_committed (rt : JSRuntime) (state : State) (pending : PromiseId)
    (errors : List ErrorDescription) (hfresh : state.pendingSimulation = some pending) :
    (Actions.triggerRemoteSimulationResume rt state pending
        (.fulfilled (.errors errors))).errors = errors ∧
    (Actions.triggerRemoteSimulationResume rt state pending
        (.fulfilled (.errors errors)))._streams = state._streams ∧
    (Actions.triggerRemoteSimulationResume rt state pending
        (.fulfilled (.errors errors))).clock = state.clock ∧
    (Actions.triggerRemoteSimulationResume rt state pending
        (.fulfilled (.errors errors))).streamSettings = state.streamSettings := by
  have hnot : ¬ (some pending ≠ state.pendingSimulation) := by
    rw [hfresh]; simp
  simp only [Actions.triggerRemoteSimulationResume, Actions.triggerRemoteSimulationTry,
    if_neg hnot]
  exact ⟨rfl, rfl, rfl, rfl⟩

theorem errors_result_committed_witness :
    clockedState.pendingSimulation = some 7 ∧
    (Actions.triggerRemoteSimulationResume referenceRuntime clockedState 7
        (.fulfilled (.errors ["line 1: syntax error"]))).errors =
      ["line 1: syntax error"] :=
  ⟨rfl, (errors_result_committed referenceRuntime clockedState 7
    ["line 1: syntax error"] rfl).1⟩

/-! ## Extreme values (stream.js, `minValue` and `maxValue`) -/

theorem isNumeric_iff (s : Stream) :
    s.isNumeric = true ↔ (s.valueType = Types.INT ∨ s.valueType = Types.FLOAT) := by
  simp [Stream.isNumeric]

/-- C15: for a stream of value type INT or FLOAT without values, `minValue` and
`maxValue` are both `initialValue`; for a stream of any other value type, with
or without values, both are `null`. -/
theorem minValue_maxValue_fallback (ops : JSRelational) (s : Stream) :
    (s.values = [] → (s.valueType = Types.INT ∨ s.valueType = Types.FLOAT) →
      s.minValue ops = some s.initialValue ∧ s.maxValue ops = some s.initialValue) ∧
    (¬ (s.valueType = Types.INT ∨ s.valueType = Types.FLOAT) →
      s.minValue ops = some JSValue.null ∧ s.maxValue ops = some JSValue.null) := by
  constructor
  · intro hempty hnum
    have h1 : s.isNumeric = true := (isNumeric_iff s).mpr hnum
    simp [Stream.minValue, Stream.maxValue, Stream._reduceNumericValues, h1,
      Stream.hasValues, hempty]
  · intro hnum
    have h1 : ¬ s.isNumeric = true := fun h => hnum ((isNumeric_iff s).mp h)
    simp [Stream.minValue, Stream.maxValue, Stream._reduceNumericValues, h1]

theorem minValue_maxValue_fallback_witness :
    (emptySignal.values = [] ∧
      (emptySignal.valueType = Types.INT ∨ emptySignal.valueType = Types.FLOAT) ∧
      emptySignal.minValue referenceRelational = some (.num 4) ∧
      emptySignal.maxValue referenceRelational = some (.num 4)) ∧
    (¬ (stringSignal.valueType = Types.INT ∨ stringSignal.valueType = Types.FLOAT) ∧
      stringSignal.minValue referenceRelational = some JSValue.null ∧
      stringSignal.maxValue referenceRelational = some JSValue.null) :=
  ⟨⟨rfl, by decide,
      (minValue_maxValue_fallback referenceRelational emptySignal).1 rfl (by decide)⟩,
    ⟨by decide,
      (minValue_maxValue_fallback referenceRelational stringSignal).2 (by decide)⟩⟩

/-! ## The example scenario -/

/-- C17: for the signal `x` of type `Int` with the values `{t: 1, v: 5}` and
`{t: 3, v: 7}` and initial value 0, `computedValueAt` is 0 at time 0, 5 at
time 1, 5 at time 2 and 7 at time 3. -/
theorem computedValueAt_example :
    exampleSignal = { name := "x", type := "SignalStream", valueType := "Int"
                      values := [⟨1, .num 5⟩, ⟨3, .num 7⟩], initialValue := .num 0 } ∧
    exampleSignal.computedValueAt 0 = .num 0 ∧
    exampleSignal.computedValueAt 1 = .num 5 ∧
    exampleSignal.computedValueAt 2 = .num 5 ∧
    exampleSignal.computedValueAt 3 = .num 7 := by
  refine ⟨rfl, by decide, by decide, by decide, by decide⟩

/-! ## Injectivity of the identity key -/

/-- C20: on streams whose type is `'SignalStream'` or `'EventStream'` and whose
value type is one of `'Boolean'`, `'Int'`, `'Float'`, `'String'`, `'Unit'`,
equal identity keys `name + type + valueType` imply equal names, equal types
and equal value types, whatever the names are. -/
theorem id_injective (a b : Stream)
    (hat : a.type = "SignalStream" ∨ a.type = "EventStream")
    (hav : a.valueType = "Boolean" ∨ a.valueType = "Int" ∨ a.valueType = "Float" ∨
      a.valueType = "String" ∨ a.valueType = "Unit")
    (hbt : b.type = "SignalStream" ∨ b.type = "EventStream")
    (hbv : b.valueType = "Boolean" ∨ b.valueType = "Int" ∨ b.valueType = "Float" ∨
      b.valueType = "String" ∨ b.valueType = "Unit")
    (h : id a = id b) :
    a.name = b.name ∧ a.type = b.type ∧ a.valueType = b.valueType :=
  id_injective_of_wellTyped a b ⟨hat, hav⟩ ⟨hbt, hbv⟩ h

theorem id_injective_witness :
    id streamA = id streamALater ∧
      (streamA.name = streamALater.name ∧ streamA.type = streamALater.type ∧
        streamA.valueType = streamALater.valueType) :=
  ⟨rfl, id_injective streamA streamALater (by decide) (by decide) (by decide) (by decide)
    rfl⟩

/-! ## Extreme values on numeric payloads -/

/-- The fold of `baseExtremum` over entries with numeric `v`: `R` is the
relation that `comparator` decides on numbers and `L` the order in which the
result is extreme. -/
theorem foldl_extremumByVStep (comparator : JSValue → JSValue → Bool)
    (R L : ℚ → ℚ → Prop)
    (hc : ∀ a b, comparator (.num a) (.num b) = true ↔ R a b)
    (hrefl : ∀ a, L a a) (htrans : ∀ a b c, L a b → L b c → L a c)
    (hR : ∀ a b, R a b → L a b) (hnR : ∀ a b, ¬ R a b → L b a) (l : List Entry)
    (hl : ∀ e ∈ l, ∃ x, e.v = .num x) :
    ∀ acc : Option Entry, (∀ a, acc = some a → ∃ x, a.v = .num x) →
      (acc = none ∧ l = [] ∧ l.foldl (extremumByVStep comparator) acc = none) ∨
      ∃ e x, l.foldl (extremumByVStep comparator) acc = some e ∧ e.v = .num x ∧
        (acc = some e ∨ e ∈ l) ∧
        (∀ a y, acc = some a → a.v = .num y → L x y) ∧
        (∀ e' ∈ l, ∀ y, e'.v = .num y → L x y) := by
  induction l with
  | nil =>
    intro acc hacc
    cases acc with
    | none => exact Or.inl ⟨rfl, rfl, rfl⟩
    | some a =>
      obtain ⟨x, hx⟩ := hacc a rfl
      refine Or.inr ⟨a, x, rfl, hx, Or.inl rfl, ?_, ?_⟩
      · intro a' y ha' hy
        cases ha'
        rw [hx] at hy
        cases hy
        exact hrefl _
      · intro e' he'
        cases he'
  | cons v rest ih =>
    intro acc hacc
    obtain ⟨xv, hxv⟩ := hl v (List.mem_cons_self _ _)
    have hrest : ∀ e ∈ rest, ∃ x, e.v = .num x :=
      fun e he => hl e (List.mem_cons_of_mem _ he)
    have hvnull : v.v ≠ JSValue.null := by rw [hxv]; simp
    simp only [List.foldl_cons]
    cases acc with
    | none =>
      have hstep : extremumByVStep comparator none v = some v := by
        simp [extremumByVStep, hvnull]
      rw [hstep]
      rcases ih hrest (some v) (fun a ha => by cases ha; exact ⟨xv, hxv⟩) with
        ⟨h, _⟩ | ⟨e, x, hfold, hex, hmem, hacc', hall⟩
      · cases h
      · refine Or.inr ⟨e, x, hfold, hex, Or.inr ?_, ?_, ?_⟩
        · rcases hmem with h | h
          · cases h; exact List.mem_cons_self _ _
          · exact List.mem_cons_of_mem _ h
        · intro a y ha; cases ha
        · intro e' he' y hy
          rcases List.mem_cons.mp he' with rfl | he''
          · exact hacc' e' y rfl hy
          · exact hall e' he'' y hy
    | some a =>
      obtain ⟨ya, hya⟩ := hacc a rfl
      by_cases hcmp : R xv ya
      · have hstep : extremumByVStep comparator (some a) v = some v := by
          simp [extremumByVStep, hvnull, hxv, hya, (hc xv ya).mpr hcmp]
        rw [hstep]
        rcases ih hrest (some v) (fun a' ha' => by cases ha'; exact ⟨xv, hxv⟩) with
          ⟨h, _⟩ | ⟨e, x, hfold, hex, hmem, hacc', hall⟩
        · cases h
        · refine Or.inr ⟨e, x, hfold, hex, Or.inr ?_, ?_, ?_⟩
          · rcases hmem with h | h
            · cases h; exact List.mem_cons_self _ _
            · exact List.mem_cons_of_mem _ h
          · intro a' y ha' hy
            cases ha'
            rw [hya] at hy
            cases hy
            exact htrans _ _ _ (hacc' v xv rfl hxv) (hR _ _ hcmp)
          · intro e' he' y hy
            rcases List.mem_cons.mp he' with rfl | he''
            · exact hacc' e' y rfl hy
            · exact hall e' he'' y hy
      · have hfalse : comparator (.num xv) (.num ya) = false := by
          cases hb : comparator (.num xv) (.num ya) with
          | false => rfl
          | true => exact absurd ((hc xv ya).mp hb) hcmp
        have hstep : extremumByVStep comparator (some a) v = some a := by
          simp [extremumByVStep, hvnull, hxv, hya, hfalse]
        rw [hstep]
        rcases ih hrest (some a) hacc with
          ⟨h, _⟩ | ⟨e, x, hfold, hex, hmem, hacc', hall⟩
        · cases h
        · refine Or.inr ⟨e, x, hfold, hex, ?_, hacc', ?_⟩
          · rcases hmem with h | h
            · exact Or.inl h
            · exact Or.inr (List.mem_cons_of_mem _ h)
          · intro e' he' y hy
            rcases List.mem_cons.mp he' with rfl | he''
            · rw [hxv] at hy
              cases hy
              exact htrans _ _ _ (hacc' a ya rfl hya) (hnR _ _ hcmp)
            · exact hall e' he'' y hy

theorem minByV_numeric (ops : JSRelational) (hops : ops.Numeric) (l : List Entry)
    (hne : l ≠ []) (hl : ∀ e ∈ l, ∃ x, e.v = .num x) :
    ∃ e x, minByV ops l = some e ∧ e.v = .num x ∧ e ∈ l ∧
      ∀ e' ∈ l, ∀ y, e'.v = .num y → x ≤ y := by
  rcases foldl_extremumByVStep ops.lt (fun a b => a < b) (fun a b => a ≤ b)
      (fun a b => by rw [(hops a b).1]; simp) (fun a => le_refl a)
      (fun a b c => le_trans) (fun a b => le_of_lt) (fun a b h => not_lt.mp h) l hl none
      (fun a ha => by cases ha) with ⟨_, h, _⟩ | ⟨e, x, hfold, hex, hmem, _, hall⟩
  · exact absurd h hne
  · rcases hmem with h | h
    · cases h
    · exact ⟨e, x, hfold, hex, h, hall⟩

theorem maxByV_numeric (ops : JSRelational) (hops : ops.Numeric) (l : List Entry)
    (hne : l ≠ []) (hl : ∀ e ∈ l, ∃ x, e.v = .num x) :
    ∃ e x, maxByV ops l = some e ∧ e.v = .num x ∧ e ∈ l ∧
      ∀ e' ∈ l, ∀ y, e'.v = .num y → y ≤ x := by
  rcases foldl_extremumByVStep ops.gt (fun a b => a > b) (fun a b => b ≤ a)
      (fun a b => by rw [(hops a b).2]; simp) (fun a => le_refl a)
      (fun a b c h1 h2 => le_trans h2 h1) (fun a b h => le_of_lt h)
      (fun a b h => not_lt.mp h) l hl none
      (fun a ha => by cases ha) with ⟨_, h, _⟩ | ⟨e, x, hfold, hex, hmem, _, hall⟩
  · exact absurd h hne
  · rcases hmem with h | h
    · cases h
    · exact ⟨e, x, hfold, hex, h, hall⟩

/-- C14: for a stream of value type INT or FLOAT with at least one value, all
values being numbers, `minValue` is the least and `maxValue` the greatest `v`
of `values`: each is the `v` of an entry, every entry lies between them, and
they do not depend on `initialValue`. -/
theorem minValue_maxValue_extreme (ops : JSRelational) (hops : ops.Numeric) (s : Stream)
    (hnum : s.valueType = Types.INT ∨ s.valueType = Types.FLOAT) (hne : s.values ≠ [])
    (hvals : ∀ e ∈ s.values, ∃ x, e.v = .num x) :
    ∃ lo hi : ℚ, s.minValue ops = some (.num lo) ∧ s.maxValue ops = some (.num hi) ∧
      (∃ e ∈ s.values, e.v = .num lo) ∧ (∃ e ∈ s.values, e.v = .num hi) ∧
      (∀ e ∈ s.values, ∀ x, e.v = .num x → lo ≤ x ∧ x ≤ hi) ∧
      (∀ initialValue : JSValue,
        Stream.minValue ops { s with initialValue := initialValue } = s.minValue ops ∧
        Stream.maxValue ops { s with initialValue := initialValue } = s.maxValue ops) := by
  have h1 : s.isNumeric = true := (isNumeric_iff s).mpr hnum
  have h2 : s.hasValues = true := by
    simp only [Stream.hasValues, decide_eq_true_eq]
    exact List.length_pos.mpr hne
  obtain ⟨emin, lo, hmin, hminv, hminmem, hminall⟩ := minByV_numeric ops hops s.values hne hvals
  obtain ⟨emax, hi, hmax, hmaxv, hmaxmem, hmaxall⟩ := maxByV_numeric ops hops s.values hne hvals
  refine ⟨lo, hi, ?_, ?_, ⟨emin, hminmem, hminv⟩, ⟨emax, hmaxmem, hmaxv⟩, ?_, ?_⟩
  · simp [Stream.minValue, Stream._reduceNumericValues, h1, h2, hmin, hminv]
  · simp [Stream.maxValue, Stream._reduceNumericValues, h1, h2, hmax, hmaxv]
  · intro e he x hx
    exact ⟨hminall e he x hx, hmaxall e he x hx⟩
  · intro initialValue
    have h1' : Stream.isNumeric { s with initialValue := initialValue } = true := h1
    have h2' : Stream.hasValues { s with initialValue := initialValue } = true := h2
    simp [Stream.minValue, Stream.maxValue, Stream._reduceNumericValues, h1, h2, h1', h2']

theorem referenceRelational_numeric : referenceRelational.Numeric := by
  intro a b
  exact ⟨rfl, rfl⟩

theorem minValue_maxValue_extreme_witness :
    ∃ lo hi : ℚ, exampleSignal.minValue referenceRelational = some (.num lo) ∧
      exampleSignal.maxValue referenceRelational = some (.num hi) ∧
      (∃ e ∈ exampleSignal.values, e.v = .num lo) ∧
      (∃ e ∈ exampleSignal.values, e.v = .num hi) ∧
      (∀ e ∈ exampleSignal.values, ∀ x, e.v = .num x → lo ≤ x ∧ x ≤ hi) ∧
      (∀ initialValue : JSValue,
        Stream.minValue referenceRelational
          { exampleSignal with initialValue := initialValue } =
            exampleSignal.minValue referenceRelational ∧
        Stream.maxValue referenceRelational
          { exampleSignal with initialValue := initialValue } =
            exampleSignal.maxValue referenceRelational) :=
  minValue_maxValue_extreme referenceRelational referenceRelational_numeric exampleSignal
    (by decide) (by decide) (by
      intro e he
      simp only [exampleSignal, List.mem_cons, List.mem_singleton, List.not_mem_nil,
        or_false] at he
      rcases he with rfl | rfl
      · exact ⟨5, rfl⟩
      · exact ⟨7, rfl⟩)

/-! ## The minimum of the first values -/

theorem foldl_extremumByTStep_lt (l : List (Option Entry)) :
    ∀ acc : Option Entry,
      (l.foldl (extremumByTStep (fun a b => decide (a < b))) acc = none ∧ acc = none ∧
        ∀ x ∈ l, x = none) ∨
      ∃ e, l.foldl (extremumByTStep (fun a b => decide (a < b))) acc = some e ∧
        (acc = some e ∨ some e ∈ l) ∧ (∀ a, acc = some a → e.t ≤ a.t) ∧
        ∀ e', some e' ∈ l → e.t ≤ e'.t := by
  induction l with
  | nil =>
    intro acc
    cases acc with
    | none => exact Or.inl ⟨rfl, rfl, fun x hx => by cases hx⟩
    | some a =>
      refine Or.inr ⟨a, rfl, Or.inl rfl, ?_, ?_⟩
      · intro a' ha'; cases ha'; exact le_refl _
      · intro e' he'; cases he'
  | cons v rest ih =>
    intro acc
    simp only [List.foldl_cons]
    cases v with
    | none =>
      have hstep : extremumByTStep (fun a b => decide (a < b)) acc none = acc := rfl
      rw [hstep]
      rcases ih acc with ⟨hfold, hacc, hall⟩ | ⟨e, hfold, hmem, hacc, hall⟩
      · refine Or.inl ⟨hfold, hacc, ?_⟩
        intro x hx
        rcases List.mem_cons.mp hx with rfl | hx'
        · rfl
        · exact hall x hx'
      · refine Or.inr ⟨e, hfold, ?_, hacc, ?_⟩
        · rcases hmem with h | h
          · exact Or.inl h
          · exact Or.inr (List.mem_cons_of_mem _ h)
        · intro e' he'
          rcases List.mem_cons.mp he' with h | h
          · cases h
          · exact hall e' h
    | some value =>
      cases acc with
      | none =>
        have hstep : extremumByTStep (fun a b => decide (a < b)) none (some value) =
            some value := rfl
        rw [hstep]
        rcases ih (some value) with ⟨_, h, _⟩ | ⟨e, hfold, hmem, hacc, hall⟩
        · cases h
        · refine Or.inr ⟨e, hfold, Or.inr ?_, ?_, ?_⟩
          · rcases hmem with h | h
            · cases h; exact List.mem_cons_self _ _
            · exact List.mem_cons_of_mem _ h
          · intro a ha; cases ha
          · intro e' he'
            rcases List.mem_cons.mp he' with h | h
            · cases h; exact hacc value rfl
            · exact hall e' h
      | some a =>
        by_cases hlt : value.t < a.t
        · have hstep : extremumByTStep (fun a b => decide (a < b)) (some a) (some value) =
              some value := by
            simp [extremumByTStep, hlt]
          rw [hstep]
          rcases ih (some value) with ⟨_, h, _⟩ | ⟨e, hfold, hmem, hacc, hall⟩
          · cases h
          · refine Or.inr ⟨e, hfold, Or.inr ?_, ?_, ?_⟩
            · rcases hmem with h | h
              · cases h; exact List.mem_cons_self _ _
              · exact List.mem_cons_of_mem _ h
            · intro a' ha'
              cases ha'
              exact le_trans (hacc value rfl) (le_of_lt hlt)
            · intro e' he'
              rcases List.mem_cons.mp he' with h | h
              · cases h; exact hacc value rfl
              · exact hall e' h
        · have hstep : extremumByTStep (fun a b => decide (a < b)) (some a) (some value) =
              some a := by
            simp [extremumByTStep, hlt]
          rw [hstep]
          rcases ih (some a) with ⟨_, h, _⟩ | ⟨e, hfold, hmem, hacc, hall⟩
          · cases h
          · refine Or.inr ⟨e, hfold, ?_, hacc, ?_⟩
            · rcases hmem with h | h
              · exact Or.inl h
              · exact Or.inr (List.mem_cons_of_mem _ h)
            · intro e' he'
              rcases List.mem_cons.mp he' with h | h
              · cases h; exact le_trans (hacc a rfl) (not_lt.mp hlt)
              · exact hall e' h

theorem firstValue_eq_head (s : Stream) : s.firstValue = s.values.head? := by
  unfold Stream.firstValue Stream.hasValues
  cases s.values <;> simp


/-! ## Example payloads that are stored whole -/

theorem orderPayload_storable : Storable referenceRuntime orderPayload := by
  intro s hs
  simp only [orderPayload, JSObject.values, List.map_cons, List.map_nil, List.mem_cons,
    List.mem_singleton, List.not_mem_nil, or_false] at hs
  rcases hs with rfl | rfl
  · exact ⟨by decide, fun text => ⟨rfl, rfl⟩⟩
  · exact ⟨by decide, fun text => ⟨rfl, rfl⟩⟩

theorem exampleMutations_storable : ∀ m ∈ exampleMutations, m.Storable referenceRuntime := by
  intro m hm
  simp only [exampleMutations, List.mem_cons, List.mem_singleton, List.not_mem_nil,
    or_false] at hm
  rcases hm with rfl | rfl
  · exact True.intro
  · exact orderPayload_storable

/-! ## Settings reconciliation (store.js, `updateStreams`) -/

theorem mem_reconciledSettings_keys (state : State) (plainStreams : JSObject Stream)
    (k : String) :
    k ∈ (Mutations.reconciledSettings state plainStreams).keys ↔
      (k ∈ state.streamSettings.keys ∧
        k ∉ (differenceBy (JSObject.values state._streams) (JSObject.values plainStreams)
          id).map Stream.name) ∨
      k ∈ (differenceBy (JSObject.values plainStreams) (JSObject.values state._streams)
          id).map Stream.name := by
  simp only [Mutations.reconciledSettings]
  rw [mem_keys_foldl_define, mem_keys_foldl_delete]

/-- After the two loops every settings key is the name of a stream of the new
mapping, provided that before them every key was the name of a stored stream. -/
theorem reconciledSettings_keys_subset (state : State) (hstate : SettingsMatchStreams state)
    (plainStreams : JSObject Stream)
    (htyped : ∀ s ∈ JSObject.values plainStreams, WellTyped s) :
    ∀ k ∈ (Mutations.reconciledSettings state plainStreams).keys,
      k ∈ (JSObject.values plainStreams).map Stream.name := by
  obtain ⟨hkeys, holdTyped⟩ := hstate
  intro k hk
  rcases (mem_reconciledSettings_keys state plainStreams k).mp hk with ⟨hold, hnot⟩ | hnew
  · obtain ⟨s, hs, hsk⟩ := hkeys k hold
    by_cases hid : id s ∈ (JSObject.values plainStreams).map id
    · obtain ⟨s', hs', hids⟩ := List.mem_map.mp hid
      have hinj := id_injective_of_wellTyped s' s (htyped s' hs') (holdTyped s hs) hids
      exact List.mem_map.mpr ⟨s', hs', hinj.1.trans hsk⟩
    · exact absurd (List.mem_map.mpr
        ⟨s, (mem_differenceBy _ _ id s).mpr ⟨hs, hid⟩, hsk⟩) hnot
  · obtain ⟨s, hs, hsk⟩ := List.mem_map.mp hnew
    exact List.mem_map.mpr ⟨s, ((mem_differenceBy _ _ id s).mp hs).1, hsk⟩

theorem reconciledSettings_has_added (state : State) (plainStreams : JSObject Stream) :
    ∀ s ∈ JSObject.values plainStreams,
      id s ∉ (JSObject.values state._streams).map id →
        s.name ∈ (Mutations.reconciledSettings state plainStreams).keys := by
  intro s hs hid
  exact (mem_reconciledSettings_keys state plainStreams s.name).mpr
    (Or.inr (List.mem_map.mpr ⟨s, (mem_differenceBy _ _ id s).mpr ⟨hs, hid⟩, rfl⟩))

theorem setStreamStyle_settingsMatch (state : State) (stream : Stream) (style : String)
    (hstate : SettingsMatchStreams state) :
    SettingsMatchStreams (Mutations.setStreamStyle state stream style) := by
  unfold Mutations.setStreamStyle
  cases hget : state.streamSettings.get stream.name with
  | none => exact hstate
  | some v =>
    refine ⟨?_, hstate.2⟩
    intro k hk
    rcases (JSObject.mem_keys_define _ _ _ k).mp hk with h | h
    · exact hstate.1 k h
    · exact hstate.1 k (h ▸ JSObject.mem_keys_of_get _ _ v hget)

theorem updateStreams_settingsMatch (rt : JSRuntime)
    (hsort : ∀ comparefn l, (rt.sort comparefn l).Perm l) (state : State)
    (hstate : SettingsMatchStreams state) (plainStreams : JSObject Stream)
    (hplain : WellFormedStreams plainStreams) (hstorable : Storable rt plainStreams) :
    SettingsMatchStreams (Mutations.updateStreams rt state plainStreams).state := by
  obtain ⟨sorted, hperm, hreturned⟩ :=
    updateStreams_returned rt hsort state plainStreams hplain.1 hstorable
  rw [hreturned]
  simp only [Completion.state]
  constructor
  · intro k hk
    obtain ⟨s, hs, hsk⟩ := List.mem_map.mp
      (reconciledSettings_keys_subset state hstate plainStreams hplain.2 k hk)
    refine ⟨s, ?_, hsk⟩
    rw [values_map_named]
    exact hperm.mem_iff.mpr hs
  · intro s hs
    rw [values_map_named] at hs
    exact hplain.2 s (hperm.mem_iff.mp hs)

theorem commit_settingsMatch (rt : JSRuntime)
    (hsort : ∀ comparefn l, (rt.sort comparefn l).Perm l) (state : State) (m : Mutation)
    (hm : m.WellFormed) (hstorable : m.Storable rt) (hstate : SettingsMatchStreams state) :
    SettingsMatchStreams (commit rt state m) := by
  cases m with
  | updateStreams plainStreams =>
    exact updateStreams_settingsMatch rt hsort state hstate plainStreams hm hstorable
  | setStreamStyle stream style => exact setStreamStyle_settingsMatch state stream style hstate
  | updateScenarioSpec _ => exact hstate
  | updateTesslaSpec _ => exact hstate
  | updateErrors _ => exact hstate
  | updatePendingSimulation _ => exact hstate
  | clearPendingSimulation => exact hstate
  | updateClock _ => exact hstate

theorem commitAll_settingsMatch (rt : JSRuntime)
    (hsort : ∀ comparefn l, (rt.sort comparefn l).Perm l) (mutations : List Mutation) :
    ∀ state : State, (∀ m ∈ mutations, m.WellFormed) → (∀ m ∈ mutations, m.Storable rt) →
      SettingsMatchStreams state → SettingsMatchStreams (commitAll rt state mutations) := by
  induction mutations with
  | nil => intro state _ _ hstate; exact hstate
  | cons m rest ih =>
    intro state hms hst hstate
    exact ih (commit rt state m) (fun m' hm' => hms m' (List.mem_cons_of_mem _ hm'))
      (fun m' hm' => hst m' (List.mem_cons_of_mem _ hm'))
      (commit_settingsMatch rt hsort state m (hms m (List.mem_cons_self _ _))
        (hst m (List.mem_cons_self _ _)) hstate)

theorem initialState_settingsMatch : SettingsMatchStreams initialState := by
  constructor
  · intro k hk; cases hk
  · intro s hs; cases hs

/-- C5 (counterexample): after `updateStreams` has stored the payload with the
streams `a` and `__proto__`, `_streams` holds `a` alone. A second
`updateStreams` with the payload `a` then finds nothing removed, and
`streamSettings` keeps the entry `__proto__`, a name absent from the new
mapping. Likewise the entry of the stream `a(` stays when the next payload is
`b`: the first `updateStreams` threw before `_streams` was assigned. -/
theorem settings_entry_outlives_stream :
    (∀ m ∈ [Mutation.updateStreams protoPayload], m.WellFormed) ∧
    WellFormedStreams singlePayload ∧
    "__proto__" ∈ (Mutations.updateStreams referenceRuntime
      (commitAll referenceRuntime initialState [.updateStreams protoPayload])
      singlePayload).state.streamSettings.keys ∧
    "__proto__" ∉ (JSObject.values singlePayload).map Stream.name ∧
    (∀ m ∈ [Mutation.updateStreams unclosedPayload], m.WellFormed) ∧
    WellFormedStreams otherPayload ∧
    "a(" ∈ (Mutations.updateStreams referenceRuntime
      (commitAll referenceRuntime initialState [.updateStreams unclosedPayload])
      otherPayload).state.streamSettings.keys ∧
    "a(" ∉ (JSObject.values otherPayload).map Stream.name := by
  refine ⟨by decide, by decide, by decide, by decide, by decide, by decide, by decide,
    by decide⟩

/-- C5 (amended): for a store reached from the initial state by mutations with
well-formed payloads that were stored whole (no stream named `__proto__`, all
patterns valid regular expressions; on a runtime whose `sort` returns a
permutation) and a new stream mapping with pairwise distinct names and types
and value types among the constants, after `updateStreams` every key of
`streamSettings` is the name of a stream of the new mapping, and every stream
of the new mapping whose identity key did not occur among the old streams has
a settings entry. -/
theorem updateStreams_settings_reconciled (rt : JSRuntime)
    (hsort : ∀ comparefn l, (rt.sort comparefn l).Perm l) (mutations : List Mutation)
    (hmutations : ∀ m ∈ mutations, m.WellFormed)
    (hstored : ∀ m ∈ mutations, m.Storable rt) (plainStreams : JSObject Stream)
    (hplain : WellFormedStreams plainStreams) :
    (∀ k ∈ (Mutations.updateStreams rt (commitAll rt initialState mutations)
        plainStreams).state.streamSettings.keys,
      k ∈ (JSObject.values plainStreams).map Stream.name) ∧
    (∀ s ∈ JSObject.values plainStreams,
      id s ∉ (JSObject.values (commitAll rt initialState mutations)._streams).map id →
        s.name ∈ (Mutations.updateStreams rt (commitAll rt initialState mutations)
          plainStreams).state.streamSettings.keys) := by
  have hstate := commitAll_settingsMatch rt hsort mutations initialState hmutations hstored
    initialState_settingsMatch
  rw [updateStreams_streamSettings]
  exact ⟨reconciledSettings_keys_subset _ hstate plainStreams hplain.2,
    reconciledSettings_has_added _ plainStreams⟩

theorem updateStreams_settings_reconciled_witness :
    (∀ m ∈ exampleMutations, m.WellFormed) ∧ WellFormedStreams laterPayload ∧
    (∀ k ∈ (Mutations.updateStreams referenceRuntime
        (commitAll referenceRuntime initialState exampleMutations)
        laterPayload).state.streamSettings.keys,
      k ∈ (JSObject.values laterPayload).map Stream.name) ∧
    (∀ s ∈ JSObject.values laterPayload,
      id s ∉ (JSObject.values
          (commitAll referenceRuntime initialState exampleMutations)._streams).map id →
        s.name ∈ (Mutations.updateStreams referenceRuntime
          (commitAll referenceRuntime initialState exampleMutations)
          laterPayload).state.streamSettings.keys) :=
  ⟨by decide, by decide,
    updateStreams_settings_reconciled referenceRuntime
      (fun comparefn l => insertionSort_perm comparefn l) exampleMutations (by decide)
      exampleMutations_storable laterPayload (by decide)⟩

/-! ## The initial clock -/

/-- The clock after a fresh result with streams has been committed to a store
whose clock is `null`, when `updateStreams` returns with the state `st`. -/
theorem resume_streams_clock (rt : JSRuntime) (state : State) (pending : PromiseId)
    (streams : JSObject Stream) (st : State)
    (hfresh : state.pendingSimulation = some pending) (hclock : state.clock = none)
    (hreturned : Mutations.updateStreams rt (commit rt state (.updateErrors [])) streams =
      .returned st) :
    (Actions.triggerRemoteSimulationResume rt state pending
        (.fulfilled (.streams streams))).clock =
      some (match Getters.firstValue st with
        | some first => first.t
        | none => 0) := by
  have hnot : ¬ (some pending ≠ state.pendingSimulation) := by
    rw [hfresh]; simp
  have hst : st.clock = none := by
    have h := updateStreams_clock rt (commit rt state (.updateErrors [])) streams
    rw [hreturned] at h
    exact h.trans hclock
  simp only [Actions.triggerRemoteSimulationResume, Actions.triggerRemoteSimulationTry,
    if_neg hnot, hreturned, hst, if_true]
  rfl

/-- C11 (counterexample): the pending request is fulfilled with the streams `a`
(first value at time 1) and `__proto__` (first value at time 0) while the clock
is `null`. `_streams` holds `a` alone, and the clock becomes 1, not the least
timestamp 0. With the stream `a(` alone, `updateStreams` throws and the clock
stays `null`. -/
theorem clock_misses_stream :
    freshState.pendingSimulation = some 3 ∧ freshState.clock = none ∧
    ((JSObject.values protoPayload).map Stream.name).Nodup ∧
    (∀ s ∈ JSObject.values protoPayload, Ascending s.values) ∧
    (Actions.triggerRemoteSimulationResume referenceRuntime freshState 3
      (.fulfilled (.streams protoPayload))).clock = some 1 ∧
    (∃ s ∈ JSObject.values protoPayload, ∃ e ∈ s.values, e.t = 0) ∧
    ((JSObject.values unclosedPayload).map Stream.name).Nodup ∧
    (∀ s ∈ JSObject.values unclosedPayload, Ascending s.values) ∧
    (Actions.triggerRemoteSimulationResume referenceRuntime freshState 3
      (.fulfilled (.streams unclosedPayload))).clock = none := by
  refine ⟨rfl, rfl, by decide, by decide, by decide, ?_, by decide, by decide, by decide⟩
  exact ⟨protoStream, by decide, ⟨0, .num 1⟩, by decide, rfl⟩

/-- C11 (amended): the pending request is fulfilled with streams (pairwise
distinct names, none of them `__proto__`, all patterns valid regular
expressions, each stream's values ascending in `t`) while the clock is `null`,
on a runtime whose `sort` returns a permutation. Then the clock becomes 0 if no
stream has a value, and otherwise a timestamp `m` that occurs in some stream of
the result and is below or equal to every timestamp of every stream of the
result. -/
theorem clock_initialised (rt : JSRuntime)
    (hsort : ∀ comparefn l, (rt.sort comparefn l).Perm l) (state : State)
    (pending : PromiseId) (streams : JSObject Stream)
    (hfresh : state.pendingSimulation = some pending) (hclock : state.clock = none)
    (hnodup : ((JSObject.values streams).map Stream.name).Nodup)
    (hstorable : Storable rt streams)
    (hasc : ∀ s ∈ JSObject.values streams, Ascending s.values) :
    ((∀ s ∈ JSObject.values streams, s.values = []) →
      (Actions.triggerRemoteSimulationResume rt state pending
        (.fulfilled (.streams streams))).clock = some 0) ∧
    ((∃ s ∈ JSObject.values streams, s.values ≠ []) →
      ∃ m, (Actions.triggerRemoteSimulationResume rt state pending
          (.fulfilled (.streams streams))).clock = some m ∧
        (∃ s ∈ JSObject.values streams, ∃ e ∈ s.values, e.t = m) ∧
        ∀ s ∈ JSObject.values streams, ∀ e ∈ s.values, m ≤ e.t) := by
  obtain ⟨sorted, hperm, hreturned⟩ :=
    updateStreams_returned rt hsort (commit rt state (.updateErrors [])) streams hnodup
      hstorable
  rw [resume_streams_clock rt state pending streams _ hfresh hclock hreturned]
  have hget : ∀ st : State, st._streams = sorted.map (fun s => (s.name, s)) →
      Getters.firstValue st = minByT (sorted.map Stream.firstValue) := by
    intro st hst
    simp only [Getters.firstValue, Getters.streams, hst, values_map_named]
  rw [hget _ rfl]
  unfold minByT
  rcases foldl_extremumByTStep_lt (sorted.map Stream.firstValue) none with
    ⟨hfold, _, hall⟩ | ⟨e, hfold, hmem, _, hmin⟩
  · rw [hfold]
    refine ⟨fun _ => rfl, ?_⟩
    rintro ⟨s, hs, hne⟩
    have hs' : s ∈ sorted := hperm.mem_iff.mpr hs
    have := hall s.firstValue (List.mem_map.mpr ⟨s, hs', rfl⟩)
    rw [firstValue_eq_head] at this
    cases hv : s.values with
    | nil => exact absurd hv hne
    | cons x xs => rw [hv] at this; cases this
  · rw [hfold]
    have hmem' : some e ∈ sorted.map Stream.firstValue := by
      rcases hmem with h | h
      · cases h
      · exact h
    obtain ⟨s0, hs0, hs0e⟩ := List.mem_map.mp hmem'
    rw [firstValue_eq_head] at hs0e
    have he0 : e ∈ s0.values := List.mem_of_mem_head? hs0e
    constructor
    · intro hempty
      have := hempty s0 (hperm.mem_iff.mp hs0)
      rw [this] at he0
      cases he0
    · intro _
      refine ⟨e.t, rfl, ⟨s0, hperm.mem_iff.mp hs0, e, he0, rfl⟩, ?_⟩
      intro s hs x hx
      have hs' : s ∈ sorted := hperm.mem_iff.mpr hs
      cases hv : s.values with
      | nil => rw [hv] at hx; cases hx
      | cons y ys =>
        have hhead : some y ∈ sorted.map Stream.firstValue :=
          List.mem_map.mpr ⟨s, hs', by rw [firstValue_eq_head, hv]; rfl⟩
        have hasc' := hasc s hs
        rw [hv] at hasc' hx
        rcases List.mem_cons.mp hx with rfl | hx'
        · exact hmin _ hhead
        · exact le_trans (hmin y hhead) (le_of_lt (ascending_head_lt hasc' x hx'))

theorem clock_initialised_witness :
    freshState.pendingSimulation = some 3 ∧ freshState.clock = none ∧
    (∃ m, (Actions.triggerRemoteSimulationResume referenceRuntime freshState 3
          (.fulfilled (.streams orderPayload))).clock = some m ∧
        (∃ s ∈ JSObject.values orderPayload, ∃ e ∈ s.values, e.t = m) ∧
        ∀ s ∈ JSObject.values orderPayload, ∀ e ∈ s.values, m ≤ e.t) :=
  ⟨rfl, rfl,
    (clock_initialised referenceRuntime (fun comparefn l => insertionSort_perm comparefn l)
      freshState 3 orderPayload rfl rfl (by decide) orderPayload_storable (by decide)).2
      ⟨streamA, by decide, by decide⟩⟩

/-! ## The stream mapping is replaced -/

/-- C19 (counterexample): the payload with the streams `a` and `__proto__` has
pairwise distinct names, and `_streams` after `updateStreams` holds `a` alone,
which is no permutation of the two input streams. With the stream `a(` alone,
`updateStreams` throws and `_streams` stays empty. -/
theorem updateStreams_loses_stream :
    ((JSObject.values protoPayload).map Stream.name).Nodup ∧
    JSObject.values (Mutations.updateStreams referenceRuntime initialState
      protoPayload).state._streams = [streamA] ∧
    ¬ (JSObject.values (Mutations.updateStreams referenceRuntime initialState
      protoPayload).state._streams).Perm (JSObject.values protoPayload) ∧
    ((JSObject.values unclosedPayload).map Stream.name).Nodup ∧
    JSObject.values (Mutations.updateStreams referenceRuntime initialState
      unclosedPayload).state._streams = [] ∧
    ¬ (JSObject.values (Mutations.updateStreams referenceRuntime initialState
      unclosedPayload).state._streams).Perm (JSObject.values unclosedPayload) := by
  have h1 : JSObject.values (Mutations.updateStreams referenceRuntime initialState
      protoPayload).state._streams = [streamA] := by decide
  have h2 : JSObject.values (Mutations.updateStreams referenceRuntime initialState
      unclosedPayload).state._streams = [] := by decide
  refine ⟨by decide, h1, ?_, by decide, h2, ?_⟩
  · intro hperm
    have := hperm.length_eq
    rw [h1] at this
    simp [protoPayload, JSObject.values] at this
  · intro hperm
    have := hperm.length_eq
    rw [h2] at this
    simp [unclosedPayload, JSObject.values] at this

/-- C19 (amended): for a stream mapping with pairwise distinct names, none of
them `__proto__`, whose patterns are valid regular expressions, and any state
(so any content of the two documents), on a runtime whose `sort` returns a
permutation: `updateStreams` returns, the values of `_streams` afterwards are a
permutation of the input streams, and every stream is stored under its own
name. -/
theorem updateStreams_permutation (rt : JSRuntime)
    (hsort : ∀ comparefn l, (rt.sort comparefn l).Perm l) (state : State)
    (plainStreams : JSObject Stream)
    (hnodup : ((JSObject.values plainStreams).map Stream.name).Nodup)
    (hstorable : Storable rt plainStreams) :
    ∃ after : State, Mutations.updateStreams rt state plainStreams = .returned after ∧
      (JSObject.values after._streams).Perm (JSObject.values plainStreams) ∧
      ∀ p ∈ after._streams, p.1 = p.2.name := by
  obtain ⟨sorted, hperm, hreturned⟩ :=
    updateStreams_returned rt hsort state plainStreams hnodup hstorable
  refine ⟨_, hreturned, ?_, ?_⟩
  · simp only [values_map_named]
    exact hperm
  · intro p hp
    obtain ⟨s, _, rfl⟩ := List.mem_map.mp hp
    rfl

theorem updateStreams_permutation_witness :
    ((JSObject.values orderPayload).map Stream.name).Nodup ∧
    ∃ after : State, Mutations.updateStreams referenceRuntime
        (Mutations.updateTesslaSpec initialState orderSpec) orderPayload = .returned after ∧
      (JSObject.values after._streams).Perm (JSObject.values orderPayload) ∧
      ∀ p ∈ after._streams, p.1 = p.2.name :=
  ⟨by decide, updateStreams_permutation referenceRuntime
    (fun comparefn l => insertionSort_perm comparefn l)
    (Mutations.updateTesslaSpec initialState orderSpec) orderPayload (by decide)
    orderPayload_storable⟩

/-! ## Default settings of added streams and settings of persisting streams -/

/-- The settings entry of a stream that `updateStreams` adds. -/
theorem updateStreams_get_added (rt : JSRuntime) (state : State)
    (plainStreams : JSObject Stream)
    (hnodup : ((JSObject.values plainStreams).map Stream.name).Nodup) (s : Stream)
    (hs : s ∈ JSObject.values plainStreams)
    (hnew : id s ∉ (JSObject.values state._streams).map id) :
    (Mutations.updateStreams rt state plainStreams).state.streamSettings.get s.name =
      some (defaultSettings s) := by
  rw [updateStreams_streamSettings]
  simp only [Mutations.reconciledSettings]
  exact foldl_define_get_of_mem defaultSettings _ _ s
    (differenceBy_names_nodup _ _ hnodup) ((mem_differenceBy _ _ id s).mpr ⟨hs, hnew⟩)

/-- C16: for a stream mapping with pairwise distinct names, a stream `s` that
`updateStreams` adds (its identity key is not among the old streams) has a
settings entry afterwards, whose style is `step` for a signal of value type
Boolean, Int or Float, `lifeline` for a signal of value type String,
`discrete` for events of value type Int or Float, `simple` for events of value
type Boolean, String or Unit, and unset for every other type and value type. -/
theorem added_stream_style (rt : JSRuntime) (state : State) (plainStreams : JSObject Stream)
    (hnodup : ((JSObject.values plainStreams).map Stream.name).Nodup) (s : Stream)
    (hs : s ∈ JSObject.values plainStreams)
    (hnew : id s ∉ (JSObject.values state._streams).map id) :
    ∃ settings : Settings,
      (Mutations.updateStreams rt state plainStreams).state.streamSettings.get s.name =
        some settings ∧
      (s.type = Types.SIGNAL →
        (s.valueType = Types.BOOL ∨ s.valueType = Types.INT ∨ s.valueType = Types.FLOAT) →
          settings.style = some Styles.STEP) ∧
      (s.type = Types.SIGNAL → s.valueType = Types.STRING →
          settings.style = some Styles.LIFELINE) ∧
      (s.type = Types.EVENTS → (s.valueType = Types.INT ∨ s.valueType = Types.FLOAT) →
          settings.style = some Styles.DISCRETE) ∧
      (s.type = Types.EVENTS →
        (s.valueType = Types.BOOL ∨ s.valueType = Types.STRING ∨
          s.valueType = Types.UNIT) →
          settings.style = some Styles.SIMPLE) ∧
      (¬ ((s.type = Types.SIGNAL ∧ (s.valueType = Types.BOOL ∨ s.valueType = Types.INT ∨
            s.valueType = Types.FLOAT ∨ s.valueType = Types.STRING)) ∨
          (s.type = Types.EVENTS ∧ (s.valueType = Types.BOOL ∨ s.valueType = Types.INT ∨
            s.valueType = Types.FLOAT ∨ s.valueType = Types.STRING ∨
            s.valueType = Types.UNIT))) →
          settings.style = none) :=
  ⟨defaultSettings s, updateStreams_get_added rt state plainStreams hnodup s hs hnew,
    preselectStyle_table s.type s.valueType⟩

theorem added_stream_style_witness :
    ∃ settings : Settings,
      (Mutations.updateStreams referenceRuntime initialState
        laterPayload).state.streamSettings.get
        streamC.name = some settings ∧
      (streamC.type = Types.SIGNAL →
        (streamC.valueType = Types.BOOL ∨ streamC.valueType = Types.INT ∨
          streamC.valueType = Types.FLOAT) →
          settings.style = some Styles.STEP) ∧
      (streamC.type = Types.SIGNAL → streamC.valueType = Types.STRING →
          settings.style = some Styles.LIFELINE) ∧
      (streamC.type = Types.EVENTS →
        (streamC.valueType = Types.INT ∨ streamC.valueType = Types.FLOAT) →
          settings.style = some Styles.DISCRETE) ∧
      (streamC.type = Types.EVENTS →
        (streamC.valueType = Types.BOOL ∨ streamC.valueType = Types.STRING ∨
          streamC.valueType = Types.UNIT) →
          settings.style = some Styles.SIMPLE) ∧
      (¬ ((streamC.type = Types.SIGNAL ∧ (streamC.valueType = Types.BOOL ∨
            streamC.valueType = Types.INT ∨ streamC.valueType = Types.FLOAT ∨
            streamC.valueType = Types.STRING)) ∨
          (streamC.type = Types.EVENTS ∧ (streamC.valueType = Types.BOOL ∨
            streamC.valueType = Types.INT ∨ streamC.valueType = Types.FLOAT ∨
            streamC.valueType = Types.STRING ∨ streamC.valueType = Types.UNIT))) →
          settings.style = none) :=
  added_stream_style referenceRuntime initialState laterPayload (by decide) streamC
    (by decide) (by decide)

theorem setStreamStyle_streams (state : State) (stream : Stream) (style : String) :
    (Mutations.setStreamStyle state stream style)._streams = state._streams := by
  unfold Mutations.setStreamStyle
  cases state.streamSettings.get stream.name <;> rfl

/-- The stored streams have pairwise distinct names and are well typed. -/
theorem commit_streams_distinct (rt : JSRuntime)
    (hsort : ∀ comparefn l, (rt.sort comparefn l).Perm l) (state : State) (m : Mutation)
    (hm : m.WellFormed)
    (hstate : ((JSObject.values state._streams).map Stream.name).Nodup ∧
      ∀ s ∈ JSObject.values state._streams, WellTyped s) :
    ((JSObject.values (commit rt state m)._streams).map Stream.name).Nodup ∧
      ∀ s ∈ JSObject.values (commit rt state m)._streams, WellTyped s := by
  cases m with
  | updateStreams plainStreams =>
    show ((JSObject.values
        (Mutations.updateStreams rt state plainStreams).state._streams).map
        Stream.name).Nodup ∧
      ∀ s ∈ JSObject.values (Mutations.updateStreams rt state plainStreams).state._streams,
        WellTyped s
    rcases updateStreams_streams_cases rt hsort state plainStreams with
      h | ⟨sorted, hperm, h⟩
    · rw [h]; exact hstate
    · rw [h]
      obtain ⟨hkeyed, hnd⟩ := orderedStreams_keyed sorted
      refine ⟨hnd, ?_⟩
      intro s hs
      obtain ⟨p, hp, rfl⟩ := List.mem_map.mp hs
      exact hm.2 p.2 (hperm.mem_iff.mp (hkeyed p hp).2)
  | setStreamStyle stream style =>
    show ((JSObject.values (Mutations.setStreamStyle state stream style)._streams).map
        Stream.name).Nodup ∧
      ∀ s ∈ JSObject.values (Mutations.setStreamStyle state stream style)._streams,
        WellTyped s
    rw [setStreamStyle_streams]
    exact hstate
  | updateScenarioSpec _ => exact hstate
  | updateTesslaSpec _ => exact hstate
  | updateErrors _ => exact hstate
  | updatePendingSimulation _ => exact hstate
  | clearPendingSimulation => exact hstate
  | updateClock _ => exact hstate

theorem commitAll_streams_distinct (rt : JSRuntime)
    (hsort : ∀ comparefn l, (rt.sort comparefn l).Perm l) (mutations : List Mutation) :
    ∀ state : State, (∀ m ∈ mutations, m.WellFormed) →
      (((JSObject.values state._streams).map Stream.name).Nodup ∧
        ∀ s ∈ JSObject.values state._streams, WellTyped s) →
      ((JSObject.values (commitAll rt state mutations)._streams).map Stream.name).Nodup ∧
        ∀ s ∈ JSObject.values (commitAll rt state mutations)._streams, WellTyped s := by
  induction mutations with
  | nil => intro state _ hstate; exact hstate
  | cons m rest ih =>
    intro state hms hstate
    exact ih (commit rt state m) (fun m' hm' => hms m' (List.mem_cons_of_mem _ hm'))
      (commit_streams_distinct rt hsort state m (hms m (List.mem_cons_self _ _)) hstate)

/-- C18: for a store reached from the initial state by mutations with well-formed
payloads (on a runtime whose `sort` returns a permutation) and a well-formed
new stream mapping: a stream of the new mapping whose identity key occurs among
the old streams, the streams that `_streams` holds, has the same
`streamSettings` entry after `updateStreams` as before; a stream of the new
mapping that shares its name with an old stream of another type or value type
has the default settings of its own type and value type afterwards. Both hold
whether `updateStreams` returns or throws. -/
theorem updateStreams_keeps_settings (rt : JSRuntime)
    (hsort : ∀ comparefn l, (rt.sort comparefn l).Perm l) (mutations : List Mutation)
    (hmutations : ∀ m ∈ mutations, m.WellFormed) (plainStreams : JSObject Stream)
    (hplain : WellFormedStreams plainStreams) :
    (∀ s ∈ JSObject.values plainStreams,
      id s ∈ (JSObject.values (commitAll rt initialState mutations)._streams).map id →
        (Mutations.updateStreams rt (commitAll rt initialState mutations)
          plainStreams).state.streamSettings.get s.name =
        (commitAll rt initialState mutations).streamSettings.get s.name) ∧
    (∀ s ∈ JSObject.values plainStreams,
      ∀ s0 ∈ JSObject.values (commitAll rt initialState mutations)._streams,
        s0.name = s.name → (s0.type ≠ s.type ∨ s0.valueType ≠ s.valueType) →
          (Mutations.updateStreams rt (commitAll rt initialState mutations)
            plainStreams).state.streamSettings.get s.name = some (defaultSettings s)) := by
  obtain ⟨hold, holdTyped⟩ := commitAll_streams_distinct rt hsort mutations initialState
    hmutations ⟨by simp [initialState, JSObject.values],
      fun s hs => by simp [initialState, JSObject.values] at hs⟩
  obtain ⟨hnd, htyped⟩ := hplain
  constructor
  · intro s hs hid
    obtain ⟨s0, hs0, hid0⟩ := List.mem_map.mp hid
    have hname : s0.name = s.name :=
      (id_injective_of_wellTyped s0 s (holdTyped s0 hs0) (htyped s hs) hid0).1
    have hremoved : s.name ∉ (differenceBy
        (JSObject.values (commitAll rt initialState mutations)._streams)
        (JSObject.values plainStreams) id).map Stream.name := by
      intro hmem
      obtain ⟨r, hr, hrname⟩ := List.mem_map.mp hmem
      obtain ⟨hrold, hrid⟩ := (mem_differenceBy _ _ id r).mp hr
      have hrs0 : r = s0 := eq_of_name_eq hold hrold hs0 (hrname.trans hname.symm)
      apply hrid
      rw [hrs0, hid0]
      exact List.mem_map.mpr ⟨s, hs, rfl⟩
    have hadded : s.name ∉ (differenceBy (JSObject.values plainStreams)
        (JSObject.values (commitAll rt initialState mutations)._streams) id).map
        Stream.name := by
      intro hmem
      obtain ⟨n, hn, hnname⟩ := List.mem_map.mp hmem
      obtain ⟨hnnew, hnid⟩ := (mem_differenceBy _ _ id n).mp hn
      have hns : n = s := eq_of_name_eq hnd hnnew hs hnname
      exact hnid (hns ▸ hid)
    rw [updateStreams_streamSettings]
    simp only [Mutations.reconciledSettings]
    rw [foldl_define_get_of_not_mem defaultSettings _ _ s.name hadded,
      foldl_delete_get _ _ s.name hremoved]
  · intro s hs s0 hs0 hname hdiff
    apply updateStreams_get_added rt _ plainStreams hnd s hs
    intro hid
    obtain ⟨r, hr, hrid⟩ := List.mem_map.mp hid
    have hinj := id_injective_of_wellTyped r s (holdTyped r hr) (htyped s hs) hrid
    have hrs0 : r = s0 := eq_of_name_eq hold hr hs0 (hinj.1.trans hname.symm)
    subst hrs0
    rcases hdiff with h | h
    · exact h hinj.2.1
    · exact h hinj.2.2

theorem updateStreams_keeps_settings_witness :
    (∀ m ∈ styledMutations, m.WellFormed) ∧ WellFormedStreams changedPayload ∧
    ((commitAll referenceRuntime initialState styledMutations).streamSettings.get "a" =
      some { style := some Styles.SMOOTH }) ∧
    ((Mutations.updateStreams referenceRuntime
        (commitAll referenceRuntime initialState styledMutations)
        changedPayload).state.streamSettings.get streamALater.name =
      (commitAll referenceRuntime initialState styledMutations).streamSettings.get
        streamALater.name) :=
  ⟨by decide, by decide, by decide,
    (updateStreams_keeps_settings referenceRuntime
      (fun comparefn l => insertionSort_perm comparefn l) styledMutations (by decide)
      changedPayload (by decide)).1 streamALater (by decide) (by decide)⟩

/-- A stream named `__proto__` is never among the old streams: after the payload
with `a` and `__proto__` has been stored and the style of `__proto__` set to
`smooth`, `_streams` holds `a` alone, so that a second `updateStreams` with the
same payload adds `__proto__` anew and its style is `step` again. -/
theorem proto_stream_added_anew :
    JSObject.values (commitAll referenceRuntime initialState protoStyledMutations)._streams =
      [streamA] ∧
    (commitAll referenceRuntime initialState protoStyledMutations).streamSettings.get
      "__proto__" = some { style := some Styles.SMOOTH } ∧
    id protoStream ∉ (JSObject.values
      (commitAll referenceRuntime initialState protoStyledMutations)._streams).map id ∧
    (Mutations.updateStreams referenceRuntime
      (commitAll referenceRuntime initialState protoStyledMutations)
      protoPayload).state.streamSettings.get "__proto__" =
        some { style := some Styles.STEP } := by
  refine ⟨by decide, by decide, by decide, by decide⟩

end TeSSLaSim
